import Mathlib

/-!
Formal verification of core algorithms of the riegeli record container
library, shallowly embedded in Lean 4.

Each definition is translated from the C++ sources:
  * `riegeli/varint/varint_writing.h` (varint lengths and encoding),
  * `riegeli/bytes/limiting_backward_writer.cc` (size-limited writer),
  * `riegeli/bytes/pushable_writer.cc` (scratch-buffer rescue),
  * `riegeli/records/record_reader.cc` (`SeekBack`),
  * `riegeli/snappy/hadoop/hadoop_snappy_reader.cc` (framed snappy pull),
  * the transpose decoder (`TransposeDecoder::ContainsImplicitLoop`,
    `TransposeDecoder::Decode`, parts of `TransposeDecoder::Parse`).

Machine integers are modelled as `Nat` with explicit bounds where overflow
matters; byte streams are `List Nat`; fallible operations return `Option`
or an explicit result type carrying a `Status`.
-/

namespace Riegeli

/-- Canonical status codes used by riegeli (absl status taxonomy). -/
inductive StatusCode where
  | ok
  | invalidArgument
  | dataLoss
  | resourceExhausted
  | unimplemented
  | failedPrecondition
  | outOfRange
  deriving DecidableEq, Repr

/-- A status: a canonical code together with a message, as carried by
failed riegeli objects. -/
structure Status where
  code : StatusCode
  message : String
  deriving DecidableEq, Repr

/-! ### Varint writing (`riegeli/varint/varint_writing.h`) -/

/-- Embeds the fallback branch of `LengthVarint32`/`LengthVarint64`:
`size_t length = 1; while (data >= 0x80) { ++length; data >>= 7; }
return length;`. -/
def lengthVarintLoop (data : Nat) : Nat :=
  if _h : data < 0x80 then 1 else 1 + lengthVarintLoop (data / 0x80)
decreasing_by exact Nat.div_lt_self (by omega) (by omega)

/-- Embeds the primary branch of `LengthVarint32`: the C++ computes
`floor_log2 = __builtin_clz(data | 1) ^ __builtin_clz(1)` and returns
`(floor_log2 * 9 + 73) / 64`.  For a 32-bit value `y >= 1` one has
`__builtin_clz(y) = 31 - floor(log2 y)` and `__builtin_clz(1) = 31`;
since `a ^^^ 31 = 31 - a` for `a < 32`, the XOR yields
`floor(log2 (data | 1))`, i.e. `Nat.log2 (data ||| 1)`.  The same
derivation applies to `__builtin_clzll` with 63 in place of 31 for
`LengthVarint64`. -/
def LengthVarint32 (data : Nat) : Nat :=
  (Nat.log2 (data ||| 1) * 9 + 73) / 64

/-- Embeds `LengthVarint64` (same formula; `floor_log2` ranges over
`[0..63]` instead of `[0..31]`). -/
def LengthVarint64 (data : Nat) : Nat :=
  (Nat.log2 (data ||| 1) * 9 + 73) / 64

/-- Embeds `char* WriteVarint32(uint32_t data, char* dest)` (and the
identical 64-bit variant) as the list of bytes written:
`if (data < 0x80) { *dest++ = data; return; }
do { *dest++ = data | 0x80; data >>= 7; } while (data >= 0x80);
*dest++ = data;`.  The cast to `char` keeps the low 8 bits, so a
continuation byte is `(data % 0x80) + 0x80`. -/
def writeVarint (data : Nat) : List Nat :=
  if _h : data < 0x80 then [data]
  else (data % 0x80 + 0x80) :: writeVarint (data / 0x80)
decreasing_by exact Nat.div_lt_self (by omega) (by omega)

theorem or_one_eq (data : Nat) : data ||| 1 = 2 * (data / 2) + 1 := by
  have hmod : (data ||| 1) % 2 = 1 := by
    have := Nat.or_mod_two_eq_one (a := data) (b := 1)
    omega
  have hdiv : (data ||| 1) / 2 = data / 2 := by
    have h1 := Nat.or_div_two (a := data) (b := 1)
    simpa using h1
  omega

theorem log2_or_one (data : Nat) :
    Nat.log2 (data ||| 1) = Nat.log 2 (max 1 data) := by
  rw [Nat.log2_eq_log_two]
  rcases Nat.eq_zero_or_pos data with h0 | hpos
  · subst h0; rfl
  · have hmax : max 1 data = data := by omega
    rw [hmax]
    have hor := or_one_eq data
    rcases Nat.even_or_odd data with he | ho
    · -- even `data >= 2` : `data ||| 1 = data + 1` and the logs agree
      have he2 : data % 2 = 0 := by
        rcases he with ⟨k, hk⟩; omega
      have heq : data ||| 1 = data + 1 := by omega
      rw [heq]
      have hne : data ≠ 0 := by omega
      have hlow : 2 ^ Nat.log 2 data ≤ data + 1 :=
        le_trans (Nat.pow_log_le_self 2 hne) (by omega)
      have hhigh : data < 2 ^ (Nat.log 2 data + 1) :=
        Nat.lt_pow_succ_log_self (by norm_num) data
      have hpow_even : 2 ^ (Nat.log 2 data + 1) % 2 = 0 := by
        have h2 : 2 ^ (Nat.log 2 data + 1) = 2 * 2 ^ Nat.log 2 data := by ring
        omega
      have hhigh' : data + 1 < 2 ^ (Nat.log 2 data + 1) := by omega
      exact Nat.log_eq_of_pow_le_of_lt_pow hlow hhigh'
    · have ho2 : data % 2 = 1 := Nat.odd_iff.mp ho
      have heq : data ||| 1 = data := by omega
      rw [heq]

theorem lengthVarintLoop_eq (data : Nat) :
    lengthVarintLoop data = Nat.log 2 (max 1 data) / 7 + 1 := by
  induction data using Nat.strong_induction_on with
  | _ data ih =>
    rw [lengthVarintLoop]
    by_cases h : data < 0x80
    · simp only [h, dif_pos]
      have hlog : Nat.log 2 (max 1 data) < 7 :=
        Nat.log_lt_of_lt_pow (by omega)
          (by have h7 : (2 : Nat) ^ 7 = 128 := by norm_num
              omega)
      omega
    · simp only [h, dif_neg, not_false_iff]
      have hd : data / 0x80 < data := Nat.div_lt_self (by omega) (by omega)
      rw [ih _ hd]
      have h1 : 1 ≤ data / 0x80 := by
        have h2 : 0x80 / 0x80 ≤ data / 0x80 :=
          Nat.div_le_div_right (le_of_not_lt h)
        simpa using h2
      have hmax1 : max 1 (data / 0x80) = data / 0x80 := by omega
      have hmax2 : max 1 data = data := by omega
      rw [hmax1, hmax2]
      have hstep : Nat.log 2 (data / 0x80) = Nat.log 2 data - 7 := by
        have h2 : data / 0x80 = data / 2 / 2 / 2 / 2 / 2 / 2 / 2 := by
          simp [Nat.div_div_eq_div_mul]
        rw [h2, Nat.log_div_base, Nat.log_div_base, Nat.log_div_base,
          Nat.log_div_base, Nat.log_div_base, Nat.log_div_base, Nat.log_div_base]
        omega
      have hge7 : 7 ≤ Nat.log 2 data :=
        Nat.le_log_of_pow_le (by norm_num)
          (by have h7 : (2 : Nat) ^ 7 = 128 := by norm_num
              omega)
      omega

theorem writeVarint_length (data : Nat) :
    (writeVarint data).length = lengthVarintLoop data := by
  induction data using Nat.strong_induction_on with
  | _ data ih =>
    rw [writeVarint, lengthVarintLoop]
    by_cases h : data < 0x80
    · simp [h]
    · have hd : data / 0x80 < data := Nat.div_lt_self (by omega) (by omega)
      simp [h, ih _ hd, Nat.add_comm]

theorem lengthVarint_le (data k : Nat) (hk : 0 < k) (h : data < 2 ^ (7 * k)) :
    lengthVarintLoop data ≤ k := by
  induction k generalizing data with
  | zero => omega
  | succ k ihk =>
    rw [lengthVarintLoop]
    by_cases hlt : data < 0x80
    · simp only [hlt, dif_pos]
      omega
    · simp only [hlt, dif_neg, not_false_iff]
      rcases Nat.eq_zero_or_pos k with hk0 | hkpos
      · exfalso
        subst hk0
        norm_num at h
        omega
      · have hdiv : data / 0x80 < 2 ^ (7 * k) := by
          rw [Nat.div_lt_iff_lt_mul (by norm_num)]
          calc data < 2 ^ (7 * (k + 1)) := h
            _ = 2 ^ (7 * k) * 0x80 := by
                rw [Nat.mul_succ, pow_add]; norm_num
        have := ihk (data / 0x80) hkpos hdiv
        omega

/-- C5: `LengthVarint32`/`LengthVarint64` compute
`floor(log2(max(1, x))) / 7 + 1`; the value is 1 below `0x80`, at most 5
for 32-bit inputs and at most 10 for 64-bit inputs; the concrete table
entries hold; and `WriteVarint32`/`WriteVarint64` emit exactly that many
bytes. -/
theorem C5_varint_length_formula (x y : Nat) (h32 : x < 2 ^ 32) (h64 : y < 2 ^ 64) :
    LengthVarint32 x = Nat.log2 (max 1 x) / 7 + 1
      ∧ (x < 0x80 → LengthVarint32 x = 1)
      ∧ LengthVarint32 x ≤ 5
      ∧ LengthVarint64 y = Nat.log2 (max 1 y) / 7 + 1
      ∧ LengthVarint64 y ≤ 10
      ∧ LengthVarint32 0 = 1
      ∧ LengthVarint32 127 = 1
      ∧ LengthVarint32 128 = 2
      ∧ LengthVarint32 (2 ^ 32 - 1) = 5
      ∧ (writeVarint x).length = LengthVarint32 x
      ∧ (writeVarint y).length = LengthVarint64 y := by
  have hform : ∀ l : Nat, l ≤ 63 → (l * 9 + 73) / 64 = l / 7 + 1 := by
    intro l hl
    omega
  have key : ∀ z : Nat, z < 2 ^ 64 → LengthVarint32 z = Nat.log 2 (max 1 z) / 7 + 1 := by
    intro z hz
    rw [LengthVarint32, log2_or_one]
    have hb : Nat.log 2 (max 1 z) ≤ 63 := by
      have hlt : Nat.log 2 (max 1 z) < 64 :=
        Nat.log_lt_of_lt_pow (by omega)
          (by have h64p : (1 : Nat) < 2 ^ 64 := by norm_num
              omega)
      omega
    rw [hform _ hb]
  have key64 : ∀ z : Nat, z < 2 ^ 64 → LengthVarint64 z = Nat.log 2 (max 1 z) / 7 + 1 := key
  have hloop : ∀ z : Nat, z < 2 ^ 64 → lengthVarintLoop z = LengthVarint32 z := by
    intro z hz
    rw [key z hz, lengthVarintLoop_eq]
  have hlog2 : ∀ z : Nat, Nat.log2 (max 1 z) = Nat.log 2 (max 1 z) :=
    fun _ => Nat.log2_eq_log_two
  have hx64 : x < 2 ^ 64 := lt_trans h32 (by norm_num)
  refine ⟨by rw [key x hx64, hlog2], ?_, ?_, by rw [key64 y h64, hlog2], ?_, ?_, ?_, ?_,
    ?_, ?_, ?_⟩
  · intro hx
    rw [key x hx64]
    have hlt7 : Nat.log 2 (max 1 x) < 7 :=
      Nat.log_lt_of_lt_pow (by omega)
        (by have h7 : (2 : Nat) ^ 7 = 128 := by norm_num
            omega)
    omega
  · rw [← hloop x hx64]
    refine lengthVarint_le x 5 (by norm_num) ?_
    have h35 : (2 : Nat) ^ 32 < 2 ^ (7 * 5) := by norm_num
    omega
  · have h3264 : LengthVarint64 y = LengthVarint32 y := rfl
    rw [h3264, ← hloop y h64]
    refine lengthVarint_le y 10 (by norm_num) ?_
    have h70 : (2 : Nat) ^ 64 < 2 ^ (7 * 10) := by norm_num
    omega
  · rw [key 0 (by norm_num)]
    have h1 : max 1 0 = 1 := by omega
    rw [h1, Nat.log_one_right]
  · rw [key 127 (by norm_num)]
    have h1 : max 1 127 = 127 := by omega
    have h2 : Nat.log 2 127 = 6 :=
      Nat.log_eq_of_pow_le_of_lt_pow (by norm_num) (by norm_num)
    rw [h1, h2]
  · rw [key 128 (by norm_num)]
    have h1 : max 1 128 = 128 := by omega
    have h2 : Nat.log 2 128 = 7 :=
      Nat.log_eq_of_pow_le_of_lt_pow (by norm_num) (by norm_num)
    rw [h1, h2]
  · rw [key (2 ^ 32 - 1) (by norm_num)]
    have h1 : max 1 (2 ^ 32 - 1) = 2 ^ 32 - 1 := by
      have h2 : (1 : Nat) ≤ 2 ^ 32 - 1 := by norm_num
      omega
    have h2 : Nat.log 2 (2 ^ 32 - 1) = 31 :=
      Nat.log_eq_of_pow_le_of_lt_pow (by norm_num) (by norm_num)
    rw [h1, h2]
  · rw [writeVarint_length, hloop x hx64]
  · rw [writeVarint_length, hloop y h64, key y h64, key64 y h64]

/-- Witness for C5 at `x = 300`, `y = 2 ^ 40`. -/
theorem C5_varint_length_formula_witness :
    (300 : Nat) < 2 ^ 32 ∧ (2 ^ 40 : Nat) < 2 ^ 64 ∧
      (LengthVarint32 300 = Nat.log2 (max 1 300) / 7 + 1
        ∧ (300 < 0x80 → LengthVarint32 300 = 1)
        ∧ LengthVarint32 300 ≤ 5
        ∧ LengthVarint64 (2 ^ 40) = Nat.log2 (max 1 (2 ^ 40)) / 7 + 1
        ∧ LengthVarint64 (2 ^ 40) ≤ 10
        ∧ LengthVarint32 0 = 1
        ∧ LengthVarint32 127 = 1
        ∧ LengthVarint32 128 = 2
        ∧ LengthVarint32 (2 ^ 32 - 1) = 5
        ∧ (writeVarint 300).length = LengthVarint32 300
        ∧ (writeVarint (2 ^ 40)).length = LengthVarint64 (2 ^ 40)) :=
  ⟨by norm_num, by norm_num,
    C5_varint_length_formula 300 (2 ^ 40) (by norm_num) (by norm_num)⟩

/-! ### Limiting backward writer (`riegeli/bytes/limiting_backward_writer.cc`)

A `BackwardWriter` grows toward lower addresses, so writing prepends
bytes to the forward contents.  The destination is modelled as the
forward contents of the underlying `BackwardWriter` (assumed healthy
and unbounded, as the claim is about the limiting layer).  The buffer
handed out by `MakeBuffer` (declared in the header, not under `src/`)
keeps `pos() <= size_limit_`; that invariant, asserted by
`RIEGELI_ASSERT_LE(start_pos(), size_limit_)` in `WriteInternal`, is a
hypothesis of the theorem below. -/

structure LimitingBackwardWriter where
  sizeLimit : Nat
  startPos : Nat
  buffered : List Nat
  dest : List Nat
  healthy : Bool
  status : Status
  deriving DecidableEq, Repr

/-- Position of the limiting writer: `start_pos() + written_to_buffer()`. -/
def LimitingBackwardWriter.pos (w : LimitingBackwardWriter) : Nat :=
  w.startPos + w.buffered.length

/-- Embeds `Fail(status)`: the writer becomes unhealthy and sticky. -/
def LimitingBackwardWriter.fail (w : LimitingBackwardWriter) (st : Status) :
    LimitingBackwardWriter :=
  { w with healthy := false, status := st }

/-- Embeds `LimitingBackwardWriterBase::SizeLimitExceeded()`:
`Fail(absl::ResourceExhaustedError(absl::StrCat("Size limit exceeded: ",
size_limit_)))`. -/
def SizeLimitExceeded (w : LimitingBackwardWriter) : LimitingBackwardWriter :=
  w.fail ⟨StatusCode.resourceExhausted, "Size limit exceeded: " ++ toString w.sizeLimit⟩

/-- Embeds `SyncBuffer(dest)`: the bytes buffered by the limiting writer
are pushed to the destination (a backward writer, hence prepended to the
forward contents) and `start_pos` advances correspondingly. -/
def syncBuffer (w : LimitingBackwardWriter) : LimitingBackwardWriter :=
  { w with
    dest := w.buffered ++ w.dest
    startPos := w.startPos + w.buffered.length
    buffered := [] }

/-- Embeds `LimitingBackwardWriterBase::WriteInternal(src)`:
`if (!healthy()) return false; if (!SyncBuffer(dest)) return false;
if (src.size() > size_limit_ - pos()) return SizeLimitExceeded();
return dest.Write(src);`. -/
def WriteInternal (src : List Nat) (w : LimitingBackwardWriter) :
    Bool × LimitingBackwardWriter :=
  if w.healthy = false then (false, w)
  else
    let w1 := syncBuffer w
    if src.length > w1.sizeLimit - w1.pos then (false, SizeLimitExceeded w1)
    else
      (true, { w1 with
        dest := src ++ w1.dest
        startPos := w1.startPos + src.length })

/-- Embeds `LimitingBackwardWriterBase::WriteZerosSlow(length)`: the same
check forwarding `dest.WriteZeros(length)` on success. -/
def WriteZerosSlow (length : Nat) (w : LimitingBackwardWriter) :
    Bool × LimitingBackwardWriter :=
  if w.healthy = false then (false, w)
  else
    let w1 := syncBuffer w
    if length > w1.sizeLimit - w1.pos then (false, SizeLimitExceeded w1)
    else
      (true, { w1 with
        dest := List.replicate length 0 ++ w1.dest
        startPos := w1.startPos + length })

/-- C6: a healthy limiting backward writer enforces
`start_pos + written <= size_limit`.  A `Write` or `WriteZeros` whose
size after syncing the buffered data would exceed `size_limit` fails
with `RESOURCE_EXHAUSTED` and a message naming the size limit, forwards
nothing beyond the already-buffered data, and leaves the writer failed;
a write that stays within the limit is forwarded unchanged. -/
theorem C6_limiting_backward_writer_limit (w : LimitingBackwardWriter)
    (src : List Nat) (n : Nat) (hh : w.healthy = true)
    (hinv : w.pos ≤ w.sizeLimit) :
    (w.pos + src.length ≤ w.sizeLimit →
      WriteInternal src w =
        (true, { w with
          dest := src ++ w.buffered ++ w.dest
          startPos := w.startPos + w.buffered.length + src.length
          buffered := [] }))
      ∧ (w.pos + src.length > w.sizeLimit →
        (WriteInternal src w).1 = false
          ∧ (WriteInternal src w).2.healthy = false
          ∧ (WriteInternal src w).2.status =
              ⟨StatusCode.resourceExhausted,
                "Size limit exceeded: " ++ toString w.sizeLimit⟩
          ∧ (WriteInternal src w).2.dest = w.buffered ++ w.dest)
      ∧ (w.pos + n ≤ w.sizeLimit →
        WriteZerosSlow n w =
          (true, { w with
            dest := List.replicate n 0 ++ w.buffered ++ w.dest
            startPos := w.startPos + w.buffered.length + n
            buffered := [] }))
      ∧ (w.pos + n > w.sizeLimit →
        (WriteZerosSlow n w).1 = false
          ∧ (WriteZerosSlow n w).2.healthy = false
          ∧ (WriteZerosSlow n w).2.status =
              ⟨StatusCode.resourceExhausted,
                "Size limit exceeded: " ++ toString w.sizeLimit⟩
          ∧ (WriteZerosSlow n w).2.dest = w.buffered ++ w.dest) := by
  have hsync : (syncBuffer w).pos = w.pos := by
    simp [syncBuffer, LimitingBackwardWriter.pos]
  have hp : w.pos = w.startPos + w.buffered.length := rfl
  refine ⟨?_, ?_, ?_, ?_⟩
  · intro hle
    rw [WriteInternal]
    rw [if_neg (by simp [hh])]
    rw [if_neg (by simp [syncBuffer, LimitingBackwardWriter.pos] at hsync ⊢; omega)]
    simp [syncBuffer, LimitingBackwardWriter.pos]
  · intro hgt
    rw [WriteInternal]
    rw [if_neg (by simp [hh])]
    rw [if_pos (by simp [syncBuffer, LimitingBackwardWriter.pos]; omega)]
    simp [SizeLimitExceeded, LimitingBackwardWriter.fail, syncBuffer]
  · intro hle
    rw [WriteZerosSlow]
    rw [if_neg (by simp [hh])]
    rw [if_neg (by simp [syncBuffer, LimitingBackwardWriter.pos]; omega)]
    simp [syncBuffer, LimitingBackwardWriter.pos]
  · intro hgt
    rw [WriteZerosSlow]
    rw [if_neg (by simp [hh])]
    rw [if_pos (by simp [syncBuffer, LimitingBackwardWriter.pos]; omega)]
    simp [SizeLimitExceeded, LimitingBackwardWriter.fail, syncBuffer]

/-- Witness for C6: a writer with limit 10 at position 3, writing 2 bytes
(within the limit) or 9 zeros (beyond it). -/
theorem C6_limiting_backward_writer_limit_witness :
    (LimitingBackwardWriter.healthy ⟨10, 2, [7], [1, 2], true, ⟨StatusCode.ok, ""⟩⟩ = true)
      ∧ (LimitingBackwardWriter.pos ⟨10, 2, [7], [1, 2], true, ⟨StatusCode.ok, ""⟩⟩ ≤ 10)
      ∧ ((LimitingBackwardWriter.pos ⟨10, 2, [7], [1, 2], true, ⟨StatusCode.ok, ""⟩⟩ + 9
            > 10) →
        (WriteZerosSlow 9 ⟨10, 2, [7], [1, 2], true, ⟨StatusCode.ok, ""⟩⟩).1 = false
          ∧ (WriteZerosSlow 9 ⟨10, 2, [7], [1, 2], true, ⟨StatusCode.ok, ""⟩⟩).2.healthy
              = false
          ∧ (WriteZerosSlow 9 ⟨10, 2, [7], [1, 2], true, ⟨StatusCode.ok, ""⟩⟩).2.status =
              ⟨StatusCode.resourceExhausted, "Size limit exceeded: " ++ toString 10⟩
          ∧ (WriteZerosSlow 9 ⟨10, 2, [7], [1, 2], true, ⟨StatusCode.ok, ""⟩⟩).2.dest =
              [7] ++ [1, 2]) := by
  refine ⟨rfl, by decide, ?_⟩
  exact (C6_limiting_backward_writer_limit
    ⟨10, 2, [7], [1, 2], true, ⟨StatusCode.ok, ""⟩⟩ [5, 5] 9 rfl (by decide)).2.2.2

/-! ### Pushable writer scratch rescue (`riegeli/bytes/pushable_writer.cc`)

`PushableWriter` exposes a scratch buffer when a concrete implementation
cannot provide the contiguous space a caller asked for.  The model keeps
the bytes that have reached the real mechanism (buffer or destination of
the concrete subclass) as `written`, and the bytes sitting in the
scratch as `scratch`.  The concrete `*BehindScratch` virtuals are
modelled by their default implementations in `pushable_writer.cc`
(`WriteBehindScratch` pushes everything through, `FlushBehindScratch`
reports health, `SeekBehindScratch` / `SizeBehindScratch` /
`TruncateBehindScratch` fail with `UNIMPLEMENTED`); buffer pointer
re-establishment is abstracted into draining the scratch bytes into
`written`. -/

structure PushableWriter where
  written : List Nat
  scratch : Option (List Nat)
  healthy : Bool
  status : Status
  deriving DecidableEq, Repr

/-- Position observed through the writer: `start_pos() +
written_to_buffer()`; while the scratch is used this includes the bytes
written into the scratch. -/
def PushableWriter.pos (w : PushableWriter) : Nat :=
  w.written.length + (w.scratch.getD []).length

/-- Embeds `PushableWriter::SyncScratch()`: the scratch contents are
written to the destination and the original buffer pointers are
re-established. -/
def SyncScratch (w : PushableWriter) : PushableWriter :=
  match w.scratch with
  | none => w
  | some bs => { w with written := w.written ++ bs, scratch := none }

/-- State-changing operations of a `PushableWriter` covered by the claim. -/
inductive WriterOp where
  | write (src : List Nat)
  | writeZeros (n : Nat)
  | flush
  | seek (newPos : Nat)
  | size
  | truncate (newSize : Nat)
  | close
  | push (minLength : Nat)
  deriving DecidableEq, Repr

/-- Embeds the state-changing entry points of `pushable_writer.cc`: each
of `WriteSlow`, `WriteZerosSlow`, `FlushImpl`, `SeekImpl`, `SizeImpl`,
`TruncateImpl`, `Done` and `PushSlow` first drains the scratch via
`SyncScratch()` when `scratch_used()`, then performs the behind-scratch
operation.  `SeekImpl`/`SizeImpl`/`TruncateImpl` continue into the
default `*BehindScratch` which fails with `UNIMPLEMENTED`; `PushSlow`
either returns the real buffer or allocates a fresh (empty) scratch,
abstracted here as ending with no pending scratch bytes. -/
def applyWriterOp (w : PushableWriter) : WriterOp → PushableWriter
  | WriterOp.write src =>
    let w1 := SyncScratch w
    { w1 with written := w1.written ++ src }
  | WriterOp.writeZeros n =>
    let w1 := SyncScratch w
    { w1 with written := w1.written ++ List.replicate n 0 }
  | WriterOp.flush => SyncScratch w
  | WriterOp.seek _ =>
    let w1 := SyncScratch w
    { w1 with
      healthy := false
      status := ⟨StatusCode.unimplemented, "Writer::Seek() not supported"⟩ }
  | WriterOp.size =>
    let w1 := SyncScratch w
    { w1 with
      healthy := false
      status := ⟨StatusCode.unimplemented, "Writer::Size() not supported"⟩ }
  | WriterOp.truncate _ =>
    let w1 := SyncScratch w
    { w1 with
      healthy := false
      status := ⟨StatusCode.unimplemented, "Writer::Truncate() not supported"⟩ }
  | WriterOp.close => SyncScratch w
  | WriterOp.push _ => SyncScratch w

/-- C8: while the scratch is in use, every state-changing operation
drains the scratch first: the scratch bytes reach the real destination
(they form, with the previously written bytes, a prefix of the new real
contents), no scratch bytes remain pending, and the position observed
through the writer still accounts for every byte previously written
into the scratch. -/
theorem C8_pushable_writer_scratch_drained (w : PushableWriter) (op : WriterOp)
    (bs : List Nat) (hs : w.scratch = some bs) :
    ((applyWriterOp w op).written.take (w.written.length + bs.length)
        = w.written ++ bs)
      ∧ (applyWriterOp w op).scratch = none
      ∧ w.pos ≤ (applyWriterOp w op).pos := by
  have hsync : SyncScratch w = { w with written := w.written ++ bs, scratch := none } := by
    rw [SyncScratch, hs]
  have hlen : w.written.length + bs.length = (w.written ++ bs).length :=
    (List.length_append _ _).symm
  have htake : ∀ extra : List Nat,
      ((w.written ++ bs) ++ extra).take (w.written.length + bs.length) = w.written ++ bs := by
    intro extra
    rw [hlen, List.take_left]
  have htake0 :
      (w.written ++ bs).take (w.written.length + bs.length) = w.written ++ bs := by
    rw [hlen, List.take_length]
  cases op with
  | write src =>
    refine ⟨?_, ?_, ?_⟩ <;>
      simp only [applyWriterOp, hsync, PushableWriter.pos, hs]
    · exact htake src
    · simp [PushableWriter.pos]
  | writeZeros n =>
    refine ⟨?_, ?_, ?_⟩ <;>
      simp only [applyWriterOp, hsync, PushableWriter.pos, hs]
    · exact htake (List.replicate n 0)
    · simp [PushableWriter.pos]
  | flush =>
    refine ⟨?_, ?_, ?_⟩ <;>
      simp only [applyWriterOp, hsync, PushableWriter.pos, hs]
    · exact htake0
    · simp [PushableWriter.pos]
  | seek newPos =>
    refine ⟨?_, ?_, ?_⟩ <;>
      simp only [applyWriterOp, hsync, PushableWriter.pos, hs]
    · exact htake0
    · simp [PushableWriter.pos]
  | size =>
    refine ⟨?_, ?_, ?_⟩ <;>
      simp only [applyWriterOp, hsync, PushableWriter.pos, hs]
    · exact htake0
    · simp [PushableWriter.pos]
  | truncate newSize =>
    refine ⟨?_, ?_, ?_⟩ <;>
      simp only [applyWriterOp, hsync, PushableWriter.pos, hs]
    · exact htake0
    · simp [PushableWriter.pos]
  | close =>
    refine ⟨?_, ?_, ?_⟩ <;>
      simp only [applyWriterOp, hsync, PushableWriter.pos, hs]
    · exact htake0
    · simp [PushableWriter.pos]
  | push minLength =>
    refine ⟨?_, ?_, ?_⟩ <;>
      simp only [applyWriterOp, hsync, PushableWriter.pos, hs]
    · exact htake0
    · simp [PushableWriter.pos]

/-- Witness for C8: a writer holding scratch bytes `[3, 4]` receiving a
`write [9]`. -/
theorem C8_pushable_writer_scratch_drained_witness :
    (PushableWriter.scratch ⟨[1, 2], some [3, 4], true, ⟨StatusCode.ok, ""⟩⟩
        = some [3, 4])
      ∧ (((applyWriterOp ⟨[1, 2], some [3, 4], true, ⟨StatusCode.ok, ""⟩⟩
            (WriterOp.write [9])).written.take ([1, 2].length + [3, 4].length)
          = [1, 2] ++ [3, 4])
        ∧ (applyWriterOp ⟨[1, 2], some [3, 4], true, ⟨StatusCode.ok, ""⟩⟩
            (WriterOp.write [9])).scratch = none
        ∧ PushableWriter.pos ⟨[1, 2], some [3, 4], true, ⟨StatusCode.ok, ""⟩⟩
            ≤ (applyWriterOp ⟨[1, 2], some [3, 4], true, ⟨StatusCode.ok, ""⟩⟩
                (WriterOp.write [9])).pos) :=
  ⟨rfl, C8_pushable_writer_scratch_drained
    ⟨[1, 2], some [3, 4], true, ⟨StatusCode.ok, ""⟩⟩ (WriterOp.write [9]) [3, 4] rfl⟩

/-! ### Hadoop snappy reader (`riegeli/snappy/hadoop/hadoop_snappy_reader.cc`)

`PullBehindScratch` decodes the Hadoop framing: a stream of chunks, each
a 4-byte big-endian uncompressed length followed by blocks, each a
4-byte big-endian compressed length and snappy-compressed data.  The
source `Reader` is modelled as the list of its remaining bytes (a
healthy source; a failed source simply makes `Pull` fail earlier, which
the claim treats together with end of stream).  The snappy library is an
external collaborator; it enters the model as an oracle whose two entry
points satisfy the snappy contract that `RawUncompress` produces exactly
`GetUncompressedLength` bytes when it succeeds. -/

/-- Embeds `ReadBigEndian32` from `riegeli/endian/endian_reading.h`:
`(b0 << 24) | (b1 << 16) | (b2 << 8) | b3`. -/
def readBigEndian32 (b0 b1 b2 b3 : Nat) : Nat :=
  (b0 <<< 24) ||| (b1 <<< 16) ||| (b2 <<< 8) ||| b3

/-- Interface of the external snappy library:
`snappy::GetUncompressedLength` and `snappy::RawUncompress`; `coherent`
is the library contract tying them together. -/
structure SnappyOracle where
  uncompressedLength : List Nat → Option Nat
  uncompress : List Nat → Option (List Nat)
  coherent : ∀ c d, uncompress c = some d → uncompressedLength c = some d.length

/-- Result of one `PullBehindScratch` call: a freshly exposed buffer with
the updated remaining chunk length and source, a `false` return at end
of stream (with the `truncated_` flag), or a `false` return with the
reader failed. -/
inductive PullResult where
  | success (buffer : List Nat) (remainingChunkLength : Nat) (src : List Nat)
  | atEnd (truncated : Bool)
  | failed (st : Status)
  deriving DecidableEq, Repr

/-- Builds the statuses of `FailInvalidStream(message)`:
`INVALID_ARGUMENT: "Invalid HadoopSnappy-compressed stream: " + message`
(the positional annotation is omitted from the model). -/
def failInvalidStream (message : String) : PullResult :=
  PullResult.failed
    ⟨StatusCode.invalidArgument, "Invalid HadoopSnappy-compressed stream: " ++ message⟩

/-- Embeds the `while (remaining_chunk_length_ == 0)` loop of
`PullBehindScratch`: repeatedly pull 4 bytes and read a big-endian chunk
length until a nonzero one appears.  A failed `Pull(4)` returns `false`,
with `truncated_` set exactly when some bytes remain. -/
def readChunkLengths : List Nat → Sum Bool (Nat × List Nat)
  | [] => Sum.inl false
  | [_] => Sum.inl true
  | [_, _] => Sum.inl true
  | [_, _, _] => Sum.inl true
  | b0 :: b1 :: b2 :: b3 :: rest =>
    let len := readBigEndian32 b0 b1 b2 b3
    if len = 0 then readChunkLengths rest else Sum.inr (len, rest)

/-- Embeds the `do { ... } while (uncompressed_length == 0)` loop of
`PullBehindScratch` together with the checks that follow it: peek a
4-byte big-endian compressed length (failing `Pull` sets `truncated_`),
reject `compressed_length > uint32_max - 4`, pull the compressed block,
ask snappy for the uncompressed length (at most the remaining chunk
length), decompress, skip empty blocks, and on a nonzero block check
`uncompressed_length > Position::max - limit_pos()` (`FailOverflow`,
modelled from the spec taxonomy as `RESOURCE_EXHAUSTED`, since
`Reader::FailOverflow` lives in `reader.cc` outside `src/`) before
exposing the block. -/
def decompressBlocks (sn : SnappyOracle) (limitPos : Nat) :
    Nat → List Nat → PullResult
  | remaining, b0 :: b1 :: b2 :: b3 :: rest =>
    let clen := readBigEndian32 b0 b1 b2 b3
    if 2 ^ 32 - 1 - 4 < clen then failInvalidStream "compressed length too large"
    else if rest.length < clen then PullResult.atEnd true
    else
      match sn.uncompressedLength (rest.take clen) with
      | none => failInvalidStream "invalid uncompressed length"
      | some ulen =>
        if remaining < ulen then failInvalidStream "uncompressed length too large"
        else
          match sn.uncompress (rest.take clen) with
          | none => failInvalidStream "invalid compressed data"
          | some d =>
            if ulen = 0 then decompressBlocks sn limitPos remaining (rest.drop clen)
            else if 2 ^ 64 - 1 - limitPos < ulen then
              PullResult.failed ⟨StatusCode.resourceExhausted, "Reader position overflow"⟩
            else PullResult.success d (remaining - ulen) (rest.drop clen)
  | _, [] => PullResult.atEnd true
  | _, [_] => PullResult.atEnd true
  | _, [_, _] => PullResult.atEnd true
  | _, [_, _, _] => PullResult.atEnd true
termination_by remaining src => src.length
decreasing_by simp [List.length_drop]; omega

/-- Embeds `HadoopSnappyReaderBase::PullBehindScratch()` for a healthy
reader: skip zero chunk lengths while `remaining_chunk_length_ == 0`,
then decompress blocks until one is nonempty. -/
def PullBehindScratch (sn : SnappyOracle) (limitPos remainingChunkLength : Nat)
    (src : List Nat) : PullResult :=
  if remainingChunkLength = 0 then
    match readChunkLengths src with
    | Sum.inl truncated => PullResult.atEnd truncated
    | Sum.inr (len, rest) => decompressBlocks sn limitPos len rest
  else decompressBlocks sn limitPos remainingChunkLength src

/-- A snappy oracle that stores data uncompressed (used as concrete test
input): both entry points succeed on every block. -/
def snappyId : SnappyOracle where
  uncompressedLength c := some c.length
  uncompress c := some c
  coherent := by
    intro c d h
    cases h
    rfl

/-- Specification of a good pull result: a successful pull exposes a
nonempty buffer, and a failure is an invalid stream (INVALID_ARGUMENT)
or a position overflow (RESOURCE_EXHAUSTED). -/
def pullOk (r : PullResult) : Prop :=
  (∀ buffer rem rest, r = PullResult.success buffer rem rest → buffer ≠ [])
    ∧ (∀ st, r = PullResult.failed st →
        st.code = StatusCode.invalidArgument
          ∨ st = ⟨StatusCode.resourceExhausted, "Reader position overflow"⟩)

theorem pullOk_invalid (m : String) : pullOk (failInvalidStream m) := by
  constructor
  · intro b r s h
    simp [failInvalidStream] at h
  · intro st h
    simp only [failInvalidStream, PullResult.failed.injEq] at h
    subst h
    left
    rfl

theorem pullOk_atEnd (t : Bool) : pullOk (PullResult.atEnd t) := by
  refine ⟨?_, ?_⟩
  · intro b r s h
    simp at h
  · intro st h
    simp at h

theorem pullOk_overflow :
    pullOk (PullResult.failed ⟨StatusCode.resourceExhausted, "Reader position overflow"⟩) := by
  constructor
  · intro b r s h
    simp at h
  · intro st h
    simp only [PullResult.failed.injEq] at h
    subst h
    right
    rfl

theorem pullOk_success (b : List Nat) (r : Nat) (s : List Nat) (hb : b ≠ []) :
    pullOk (PullResult.success b r s) := by
  constructor
  · intro b' r' s' h
    simp only [PullResult.success.injEq] at h
    rw [← h.1]
    exact hb
  · intro st h
    simp at h

theorem decompressBlocks_pullOk (sn : SnappyOracle) (limitPos : Nat) :
    ∀ (n : Nat) (src : List Nat) (remaining : Nat), src.length ≤ n →
      pullOk (decompressBlocks sn limitPos remaining src) := by
  intro n
  induction n with
  | zero =>
    intro src remaining hlen
    have hsrc : src = [] := List.length_eq_zero.mp (Nat.le_zero.mp hlen)
    subst hsrc
    rw [decompressBlocks]
    exact pullOk_atEnd true
  | succ n ih =>
    intro src remaining hlen
    rcases src with _ | ⟨b0, _ | ⟨b1, _ | ⟨b2, _ | ⟨b3, rest⟩⟩⟩⟩
    · rw [decompressBlocks]; exact pullOk_atEnd true
    · rw [decompressBlocks]; exact pullOk_atEnd true
    · rw [decompressBlocks]; exact pullOk_atEnd true
    · rw [decompressBlocks]; exact pullOk_atEnd true
    · rw [decompressBlocks]
      split
      · exact pullOk_invalid _
      · split
        · exact pullOk_atEnd _
        · split
          · exact pullOk_invalid _
          · next ulen heqLen =>
            split
            · exact pullOk_invalid _
            · split
              · exact pullOk_invalid _
              · next d hequ =>
                split
                · refine ih _ remaining ?_
                  simp only [List.length_drop]
                  simp only [List.length_cons] at hlen
                  omega
                · split
                  · exact pullOk_overflow
                  · refine pullOk_success _ _ _ ?_
                    have hco := sn.coherent _ _ hequ
                    rw [heqLen] at hco
                    have hdl : d.length = ulen := by
                      injection hco with h1
                      omega
                    next hulen _ =>
                    intro hd
                    apply hulen
                    rw [← hdl, hd]
                    rfl

/-- C10 (amended): a pull that returns `true` always exposes at least one
byte; a `false` return is end of stream (possibly with the `truncated_`
flag pending), an invalid stream failing with `INVALID_ARGUMENT`, or a
position overflow failing with `RESOURCE_EXHAUSTED`. -/
theorem C10_hadoop_snappy_pull_nonempty (sn : SnappyOracle)
    (limitPos remaining : Nat) (src : List Nat) :
    (∀ buffer rem rest,
      PullBehindScratch sn limitPos remaining src = PullResult.success buffer rem rest →
        buffer ≠ [])
      ∧ (∀ st, PullBehindScratch sn limitPos remaining src = PullResult.failed st →
          st.code = StatusCode.invalidArgument
            ∨ st = ⟨StatusCode.resourceExhausted, "Reader position overflow"⟩) := by
  have hmain : pullOk (PullBehindScratch sn limitPos remaining src) := by
    rw [PullBehindScratch]
    split
    · split
      · exact pullOk_atEnd _
      · exact decompressBlocks_pullOk sn limitPos _ _ _ le_rfl
    · exact decompressBlocks_pullOk sn limitPos _ _ _ le_rfl
  exact hmain

/-- Witness for C10: pulling from a stream holding one chunk of length 2
with one identity-"compressed" block `[7, 8]` exposes `[7, 8]`. -/
theorem C10_hadoop_snappy_pull_nonempty_witness :
    PullBehindScratch snappyId 0 0 [0, 0, 0, 2, 0, 0, 0, 2, 7, 8]
        = PullResult.success [7, 8] 0 []
      ∧ ([7, 8] : List Nat) ≠ [] := by
  constructor
  · simp [PullBehindScratch, readChunkLengths, decompressBlocks, readBigEndian32, snappyId]
  · exact (C10_hadoop_snappy_pull_nonempty snappyId 0 0
      [0, 0, 0, 2, 0, 0, 0, 2, 7, 8]).1 [7, 8] 0 []
      (by simp [PullBehindScratch, readChunkLengths, decompressBlocks, readBigEndian32,
        snappyId])

/-- Counterexample to C10 as stated: with the decoded position at the
64-bit limit, a pull on a perfectly valid, non-truncated stream returns
`false` through `FailOverflow` with `RESOURCE_EXHAUSTED` — a fourth
cause beyond end of stream, source failure, and invalid stream. -/
theorem C10_hadoop_snappy_pull_overflow_cex :
    PullBehindScratch snappyId (2 ^ 64 - 1) 1 [0, 0, 0, 1, 9]
        = PullResult.failed ⟨StatusCode.resourceExhausted, "Reader position overflow"⟩
      ∧ StatusCode.resourceExhausted ≠ StatusCode.invalidArgument := by
  constructor
  · simp [PullBehindScratch, decompressBlocks, readBigEndian32, snappyId]
  · decide

/-! ### Record reader `SeekBack` (`riegeli/records/record_reader.cc`)

The chunk file is modelled as the list of its chunks, each summarised by
the byte offset of its header (`chunk_begin`) and its number of records;
chunk offsets are strictly increasing and a nonempty file starts with a
chunk at offset 0 (the signature chunk).  The chunk reader and chunk
decoder are assumed healthy — `SeekToChunkBefore` and `ReadChunk`
succeed on every well-formed position, and no recovery callback is
installed — as the claim describes a healthy `RecordReader`. -/

structure ChunkSummary where
  chunkBegin : Nat
  numRecords : Nat
  deriving DecidableEq, Repr

/-- Embeds `ChunkReader::SeekToChunkBefore(pos)` followed by
`RecordReaderBase::ReadChunk()`: locates (and reads) the last chunk
whose header offset is at most `pos`, or fails when every chunk starts
after `pos`. -/
def seekToChunkBefore : List ChunkSummary → Nat → Option ChunkSummary
  | [], _ => none
  | c :: rest, p =>
    if p < c.chunkBegin then none
    else
      match seekToChunkBefore rest p with
      | some c2 => some c2
      | none => some c

/-- Embeds the `while (chunk_pos > 0)` loop of
`RecordReaderBase::SeekBack()`: seek to the chunk before `chunk_pos - 1`
and read it; a chunk with records yields position
`(chunk_begin, num_records - 1)`; a zero-record chunk continues the
search further back.  The loop state is `(chunk_pos, chunk_begin_)`; the
source assigns `chunk_pos = chunk_begin_` before `ReadChunk()` updates
`chunk_begin_`, so a zero-record chunk is visited twice before the
search moves past it.  `fuel` bounds the iteration count (the C++ loop
is bounded by the same argument; `SeekBack` below passes enough fuel). -/
def seekBackLoop (chunks : List ChunkSummary) :
    Nat → Nat → Nat → Option (Nat × Nat)
  | 0, _, _ => none
  | fuel + 1, chunkPos, chunkBegin =>
    if chunkPos = 0 then none
    else
      match seekToChunkBefore chunks (chunkPos - 1) with
      | none => none
      | some c =>
        if 0 < c.numRecords then some (c.chunkBegin, c.numRecords - 1)
        else seekBackLoop chunks fuel chunkBegin c.chunkBegin

/-- Embeds `RecordReaderBase::SeekBack()` for a healthy reader at record
index `index` of the chunk at `chunkBegin`: a positive index is simply
decremented; otherwise the backward search loop runs. -/
def SeekBack (chunks : List ChunkSummary) (chunkBegin index : Nat) :
    Option (Nat × Nat) :=
  if 0 < index then some (chunkBegin, index - 1)
  else seekBackLoop chunks (2 * chunks.length + 1) chunkBegin chunkBegin

theorem seekToChunkBefore_split (pre post : List ChunkSummary) (p : Nat)
    (hpre : ∀ c ∈ pre, c.chunkBegin ≤ p)
    (hpost : ∀ c ∈ post, p < c.chunkBegin) :
    seekToChunkBefore (pre ++ post) p = pre.getLast? := by
  induction pre with
  | nil =>
    simp only [List.nil_append]
    cases post with
    | nil => rfl
    | cons c rest =>
      rw [seekToChunkBefore, if_pos (hpost c (by simp))]
      rfl
  | cons c pre' ih =>
    rw [List.cons_append, seekToChunkBefore,
      if_neg (by have := hpre c (by simp); omega),
      ih (fun x hx => hpre x (by simp [hx]))]
    cases pre' with
    | nil => rfl
    | cons d rest =>
      cases hg : (d :: rest).getLast? with
      | none => simp at hg
      | some x => rw [List.getLast?_cons_cons, hg]

theorem seekBackLoop_spec (chunks : List ChunkSummary)
    (hsort : List.Pairwise (fun a b => a.chunkBegin < b.chunkBegin) chunks)
    (hfirst : ∀ c0, chunks.head? = some c0 → c0.chunkBegin = 0) :
    ∀ (front : List ChunkSummary) (cur : ChunkSummary) (back : List ChunkSummary)
      (fuel : Nat), chunks = front ++ cur :: back → 2 * front.length + 1 ≤ fuel →
      seekBackLoop chunks fuel cur.chunkBegin cur.chunkBegin =
        match (front.filter fun c => 0 < c.numRecords).getLast? with
        | some c => some (c.chunkBegin, c.numRecords - 1)
        | none => none := by
  intro front
  induction front using List.reverseRecOn with
  | nil =>
    intro cur back fuel hdec hfuel
    have hcur : cur.chunkBegin = 0 := by
      apply hfirst
      rw [hdec]
      rfl
    obtain ⟨f1, rfl⟩ : ∃ f1, fuel = f1 + 1 := ⟨fuel - 1, by omega⟩
    rw [seekBackLoop, if_pos hcur]
    rfl
  | append_singleton front' d ih =>
    intro cur back fuel hdec hfuel
    -- ordering facts from sortedness
    have hdmem : d ∈ front' ++ [d] := by simp
    have horder : ∀ a ∈ front' ++ [d], ∀ b ∈ cur :: back,
        a.chunkBegin < b.chunkBegin := by
      rw [hdec] at hsort
      exact (List.pairwise_append.mp hsort).2.2
    have hdcur : d.chunkBegin < cur.chunkBegin := horder d hdmem cur (by simp)
    have hcurpos : 0 < cur.chunkBegin := by omega
    have hseek : seekToChunkBefore chunks (cur.chunkBegin - 1) = some d := by
      rw [hdec, seekToChunkBefore_split]
      · simp
      · intro c hc
        have := horder c hc cur (by simp)
        omega
      · intro c hc
        rcases List.mem_cons.mp hc with hc | hc
        · subst hc
          omega
        · rw [hdec] at hsort
          have hback := (List.pairwise_append.mp hsort).2.1
          have := (List.pairwise_cons.mp hback).1 c hc
          omega
    have hflen : (front' ++ [d]).length = front'.length + 1 := by simp
    obtain ⟨f1, rfl⟩ : ∃ f1, fuel = f1 + 1 := ⟨fuel - 1, by omega⟩
    rw [seekBackLoop, if_neg (by omega), hseek]
    dsimp only
    by_cases hd : 0 < d.numRecords
    · rw [if_pos hd]
      have hfil : ((front' ++ [d]).filter fun c => 0 < c.numRecords).getLast?
          = some d := by
        rw [List.filter_append, List.getLast?_append]
        simp [List.filter, hd]
      rw [hfil]
    · rw [if_neg hd]
      -- second visit of the zero-record chunk `d`
      obtain ⟨f2, rfl⟩ : ∃ f2, f1 = f2 + 1 := ⟨f1 - 1, by rw [hflen] at hfuel; omega⟩
      rw [seekBackLoop, if_neg (by omega), hseek]
      dsimp only
      rw [if_neg hd]
      have hdec' : chunks = front' ++ d :: (cur :: back) := by
        rw [hdec]
        simp
      rw [ih d (cur :: back) f2 hdec' (by rw [hflen] at hfuel; omega)]
      have hfil : ((front' ++ [d]).filter fun c => 0 < c.numRecords)
          = front'.filter fun c => 0 < c.numRecords := by
        rw [List.filter_append]
        simp [List.filter, hd]
      rw [hfil]

/-- C7: for a healthy record reader, `SeekBack` steps exactly one record
backward: a positive record index is only decremented; at index 0 the
reader searches strictly before the current chunk with
`SeekToChunkBefore`, skips every zero-record chunk, and lands on the
last record of the nearest preceding chunk with records; it returns
`false` when the beginning of the file is reached without finding a
record. -/
theorem C7_record_reader_seek_back (chunks front back : List ChunkSummary)
    (cur : ChunkSummary) (index : Nat)
    (hdec : chunks = front ++ cur :: back)
    (hsort : List.Pairwise (fun a b => a.chunkBegin < b.chunkBegin) chunks)
    (hfirst : ∀ c0, chunks.head? = some c0 → c0.chunkBegin = 0) :
    (0 < index →
      SeekBack chunks cur.chunkBegin index = some (cur.chunkBegin, index - 1))
      ∧ SeekBack chunks cur.chunkBegin 0 =
          match (front.filter fun c => 0 < c.numRecords).getLast? with
          | some c => some (c.chunkBegin, c.numRecords - 1)
          | none => none := by
  constructor
  · intro hi
    rw [SeekBack, if_pos hi]
  · rw [SeekBack, if_neg (by omega)]
    refine seekBackLoop_spec chunks hsort hfirst front cur back _ hdec ?_
    have : chunks.length = front.length + back.length + 1 := by
      rw [hdec]
      simp only [List.length_append, List.length_cons]
      omega
    omega

/-- Witness for C7: a file with a two-record chunk at 0, an empty chunk
at 40 and the current three-record chunk at 80; `SeekBack` from record 0
of the chunk at 80 skips the empty chunk and lands on record 1 of the
chunk at 0. -/
theorem C7_record_reader_seek_back_witness :
    SeekBack [⟨0, 2⟩, ⟨40, 0⟩, ⟨80, 3⟩] 80 0 = some (0, 1) := by
  have h := (C7_record_reader_seek_back [⟨0, 2⟩, ⟨40, 0⟩, ⟨80, 3⟩]
    [⟨0, 2⟩, ⟨40, 0⟩] [] ⟨80, 3⟩ 1 rfl (by decide)
    (by intro c0 h
        injection h with h2
        subst h2
        rfl)).2
  rw [show (ChunkSummary.mk 80 3).chunkBegin = 80 from rfl] at h
  rw [h]
  rfl

/-! ### Transpose decoder: implicit-loop detection
(`TransposeDecoder::ContainsImplicitLoop`)

A state machine over `n` nodes is given by `imp : Nat → Bool` (whether
`internal::IsImplicit(node->callback_type)`) and `next : Nat → Nat`
(the index of `node->next_node`); `Parse` guarantees every stored
next-node index is below the node count.  The C++ walks chains of
implicit edges, colouring nodes with loop ids; its `while` loop
terminates because every continuing iteration colours a previously
uncoloured node, and the embedding makes that bound explicit as fuel
`n + 1` (shown sufficient by `numZeros`-counting in the lemmas). -/

/-- Embeds the inner loop of `ContainsImplicitLoop`:
`while (IsImplicit(node->callback_type)) { node = node->next_node;
if (ids[node] == next_loop_id) return true; if (ids[node] != 0) break;
ids[node] = next_loop_id; }`.  Returns the verdict and the updated
colouring. -/
def chainWalk (imp : Nat → Bool) (next : Nat → Nat) (c : Nat) :
    Nat → (Nat → Nat) → Nat → Bool × (Nat → Nat)
  | 0, ids, _ => (false, ids)
  | fuel + 1, ids, node =>
    if imp node then
      let node2 := next node
      if ids node2 = c then (true, ids)
      else if ids node2 ≠ 0 then (false, ids)
      else chainWalk imp next c fuel (Function.update ids node2 c) node2
    else (false, ids)

/-- Embeds the outer `for` loop of `ContainsImplicitLoop`: skip already
coloured nodes, colour a fresh start with `next_loop_id`, walk its
implicit chain, and advance `next_loop_id`. -/
def implicitLoopOuter (imp : Nat → Bool) (next : Nat → Nat) (n : Nat) :
    List Nat → (Nat → Nat) → Nat → Bool
  | [], _, _ => false
  | i :: rest, ids, c =>
    if ids i ≠ 0 then implicitLoopOuter imp next n rest ids c
    else
      let ids1 := Function.update ids i c
      match chainWalk imp next c (n + 1) ids1 i with
      | (true, _) => true
      | (false, ids2) => implicitLoopOuter imp next n rest ids2 (c + 1)

/-- Embeds `TransposeDecoder::ContainsImplicitLoop(state_machine_nodes)`:
all loop ids start at zero and `next_loop_id` starts at 1. -/
def ContainsImplicitLoop (n : Nat) (imp : Nat → Bool) (next : Nat → Nat) : Bool :=
  implicitLoopOuter imp next n (List.range n) (fun _ => 0) 1

/-- Embeds the implicit-loop rejection in `TransposeDecoder::Parse`:
`if (ContainsImplicitLoop(&state_machine_nodes)) return
Fail(absl::InvalidArgumentError("Nodes contain an implicit loop"));`
(`none` means parsing proceeds past this check). -/
def parseImplicitLoopCheck (n : Nat) (imp : Nat → Bool) (next : Nat → Nat) :
    Option Status :=
  if ContainsImplicitLoop n imp next then
    some ⟨StatusCode.invalidArgument, "Nodes contain an implicit loop"⟩
  else none

/-- The chain of implicit transitions, followed `k` steps from node `i`:
a step from `i` exists exactly when node `i` carries the IMPLICIT flag. -/
def iterChain (imp : Nat → Bool) (next : Nat → Nat) : Nat → Nat → Option Nat
  | 0, i => some i
  | k + 1, i => if imp i then iterChain imp next k (next i) else none

/-- A node lies on an implicit loop: it is reachable from itself by a
nonempty chain of implicit transitions. -/
def OnCycle (imp : Nat → Bool) (next : Nat → Nat) (j : Nat) : Prop :=
  ∃ k, 0 < k ∧ iterChain imp next k j = some j

/-- Number of uncoloured nodes, the decreasing measure of the C++ walk. -/
def numZeros (n : Nat) (ids : Nat → Nat) : Nat :=
  ((List.range n).filter fun i => ids i = 0).length

theorem iterChain_add (imp : Nat → Bool) (next : Nat → Nat) (a b i : Nat) :
    iterChain imp next (a + b) i
      = (iterChain imp next a i).bind (iterChain imp next b) := by
  induction a generalizing i with
  | zero => simp [iterChain]
  | succ a ih =>
    have h1 : a + 1 + b = (a + b) + 1 := by omega
    rw [h1]
    by_cases h : imp i
    · rw [iterChain, if_pos h, ih]
      rw [iterChain, if_pos h]
    · rw [iterChain, if_neg h]
      rw [iterChain, if_neg h]
      rfl

theorem iterChain_one (imp : Nat → Bool) (next : Nat → Nat) (i : Nat)
    (h : imp i = true) : iterChain imp next 1 i = some (next i) := by
  rw [iterChain, if_pos h]
  rfl

theorem onCycle_imp (imp : Nat → Bool) (next : Nat → Nat) (j : Nat)
    (h : OnCycle imp next j) : imp j = true := by
  obtain ⟨k, hk, hc⟩ := h
  obtain ⟨k', rfl⟩ : ∃ k', k = k' + 1 := ⟨k - 1, by omega⟩
  rw [iterChain] at hc
  by_cases hi : imp j
  · exact hi
  · rw [if_neg hi] at hc
    cases hc

theorem onCycle_reach (imp : Nat → Bool) (next : Nat → Nat) (j x m : Nat)
    (hcyc : OnCycle imp next j)
    (hreach : iterChain imp next m j = some x) : OnCycle imp next x := by
  obtain ⟨k, hk, hc⟩ := hcyc
  have hiter : ∀ t, iterChain imp next (t * k) j = some j := by
    intro t
    induction t with
    | zero => simp [iterChain]
    | succ t ih =>
      have h1 : (t + 1) * k = t * k + k := by ring
      rw [h1, iterChain_add, ih]
      exact hc
  have htk : m ≤ (m + 1) * k := by
    calc m ≤ (m + 1) * 1 := by omega
      _ ≤ (m + 1) * k := Nat.mul_le_mul_left _ hk
  obtain ⟨a, ha⟩ : ∃ a, (m + 1) * k = m + a := ⟨(m + 1) * k - m, by omega⟩
  have h1 : iterChain imp next (m + a) j = some j := by
    rw [← ha]
    exact hiter (m + 1)
  rw [iterChain_add, hreach] at h1
  have h2 : iterChain imp next a x = some j := by simpa using h1
  have hpos : 0 < m + a := by
    rw [← ha]
    exact Nat.mul_pos (by omega) hk
  refine ⟨a + m, by omega, ?_⟩
  rw [iterChain_add, h2]
  simpa using hreach

theorem onCycle_next (imp : Nat → Bool) (next : Nat → Nat) (j : Nat)
    (h : OnCycle imp next j) : OnCycle imp next (next j) :=
  onCycle_reach imp next j (next j) 1 h (iterChain_one imp next j (onCycle_imp imp next j h))

theorem numZeros_le (n : Nat) (ids : Nat → Nat) : numZeros n ids ≤ n := by
  unfold numZeros
  calc ((List.range n).filter fun i => ids i = 0).length
      ≤ (List.range n).length := List.length_filter_le _ _
    _ = n := List.length_range n

theorem numZeros_update (n : Nat) (ids : Nat → Nat) (v c : Nat)
    (hv : v < n) (hids : ids v = 0) (hc : c ≠ 0) :
    numZeros n (Function.update ids v c) + 1 = numZeros n ids := by
  unfold numZeros
  have key : ∀ l : List Nat, l.Nodup → v ∈ l →
      (l.filter fun i => Function.update ids v c i = 0).length + 1
        = (l.filter fun i => ids i = 0).length := by
    intro l
    induction l with
    | nil => intro _ hv'; cases hv'
    | cons a l ih =>
      intro hnd hv'
      rw [List.nodup_cons] at hnd
      rcases List.mem_cons.mp hv' with rfl | hvl
      · rw [List.filter_cons, List.filter_cons]
        have h1 : decide (Function.update ids v c v = 0) = false := by
          simp [Function.update_same, hc]
        have h2 : decide (ids v = 0) = true := by simp [hids]
        rw [h1, h2]
        have h3 : (l.filter fun i => Function.update ids v c i = 0)
            = l.filter fun i => ids i = 0 := by
          apply List.filter_congr
          intro x hx
          have hxv : x ≠ v := fun h => hnd.1 (h ▸ hx)
          simp [Function.update_apply, hxv]
        rw [h3]
        simp
      · have hav : a ≠ v := fun h => hnd.1 (h ▸ hvl)
        rw [List.filter_cons, List.filter_cons]
        have h1 : decide (Function.update ids v c a = 0) = decide (ids a = 0) := by
          simp [Function.update_apply, hav]
        rw [h1]
        cases hpa : decide (ids a = 0)
        · simp only [Bool.false_eq_true, if_false]
          exact ih hnd.2 hvl
        · simp only [if_true, List.length_cons]
          have := ih hnd.2 hvl
          omega
  exact key (List.range n) (List.nodup_range n) (List.mem_range.mpr hv)

theorem chainWalk_marks (imp : Nat → Bool) (next : Nat → Nat) (c : Nat)
    (_hc : c ≠ 0) :
    ∀ (fuel : Nat) (ids : Nat → Nat) (node j : Nat),
      (chainWalk imp next c fuel ids node).2 j = ids j
        ∨ (ids j = 0 ∧ (chainWalk imp next c fuel ids node).2 j = c) := by
  intro fuel
  induction fuel with
  | zero =>
    intro ids node j
    left
    rfl
  | succ fuel ih =>
    intro ids node j
    rw [chainWalk]
    by_cases h : imp node
    · rw [if_pos h]
      dsimp only
      by_cases h1 : ids (next node) = c
      · rw [if_pos h1]
        left
        rfl
      · rw [if_neg h1]
        by_cases h2 : ids (next node) ≠ 0
        · rw [if_pos h2]
          left
          rfl
        · rw [if_neg h2]
          push_neg at h2
          rcases ih (Function.update ids (next node) c) (next node) j with h3 | ⟨h3, h4⟩
          · by_cases hj : j = next node
            · subst hj
              right
              refine ⟨h2, ?_⟩
              rw [h3, Function.update_same]
            · left
              rw [h3, Function.update_apply, if_neg hj]
          · by_cases hj : j = next node
            · subst hj
              right
              exact ⟨h2, h4⟩
            · rw [Function.update_apply, if_neg hj] at h3
              right
              exact ⟨h3, h4⟩
    · rw [if_neg h]
      left
      rfl

theorem chainWalk_true_cycle (imp : Nat → Bool) (next : Nat → Nat) (n : Nat)
    (hn : ∀ i, imp i = true → next i < n) :
    ∀ (fuel : Nat) (ids : Nat → Nat) (c node : Nat),
      (∀ j, ids j = c → ∃ m, iterChain imp next m j = some node) →
      (chainWalk imp next c fuel ids node).1 = true →
      ∃ i, i < n ∧ OnCycle imp next i := by
  intro fuel
  induction fuel with
  | zero =>
    intro ids c node _ h
    rw [chainWalk] at h
    cases h
  | succ fuel ih =>
    intro ids c node hR htrue
    rw [chainWalk] at htrue
    by_cases h : imp node
    · rw [if_pos h] at htrue
      dsimp only at htrue
      by_cases h1 : ids (next node) = c
      · obtain ⟨m, hm⟩ := hR (next node) h1
        refine ⟨next node, hn node h, m + 1, by omega, ?_⟩
        rw [iterChain_add, hm]
        simp [iterChain_one imp next node h]
      · rw [if_neg h1] at htrue
        by_cases h2 : ids (next node) ≠ 0
        · rw [if_pos h2] at htrue
          cases htrue
        · rw [if_neg h2] at htrue
          refine ih (Function.update ids (next node) c) c (next node) ?_ htrue
          intro j hj
          by_cases hji : j = next node
          · subst hji
            exact ⟨0, rfl⟩
          · rw [Function.update_apply, if_neg hji] at hj
            obtain ⟨m, hm⟩ := hR j hj
            refine ⟨m + 1, ?_⟩
            rw [iterChain_add, hm]
            simp [iterChain_one imp next node h]
    · rw [if_neg h] at htrue
      cases htrue

theorem chainWalk_false_safe (imp : Nat → Bool) (next : Nat → Nat) (n : Nat)
    (hn : ∀ i, imp i = true → next i < n) :
    ∀ (fuel : Nat) (ids : Nat → Nat) (c node : Nat),
      c ≠ 0 →
      numZeros n ids < fuel →
      (∀ j, ids j = c → ∃ m, iterChain imp next m j = some node) →
      (∀ j, ids j ≠ 0 → ids j ≠ c → ¬ OnCycle imp next j) →
      (chainWalk imp next c fuel ids node).1 = false →
      ∀ j, (chainWalk imp next c fuel ids node).2 j = c → ¬ OnCycle imp next j := by
  intro fuel
  induction fuel with
  | zero =>
    intro ids c node _ hfuel _ _ _
    omega
  | succ fuel ih =>
    intro ids c node hc hfuel hR hsafe hfalse
    rw [chainWalk] at hfalse ⊢
    by_cases h : imp node
    · rw [if_pos h] at hfalse ⊢
      dsimp only at hfalse ⊢
      by_cases h1 : ids (next node) = c
      · rw [if_pos h1] at hfalse
        cases hfalse
      · rw [if_neg h1] at hfalse ⊢
        by_cases h2 : ids (next node) ≠ 0
        · rw [if_pos h2] at hfalse ⊢
          intro j hj hcyc
          obtain ⟨m, hm⟩ := hR j hj
          have hnode : OnCycle imp next node := onCycle_reach imp next j node m hcyc hm
          exact hsafe (next node) h2 h1 (onCycle_next imp next node hnode)
        · rw [if_neg h2] at hfalse ⊢
          push_neg at h2
          have hnlt : next node < n := hn node h
          refine ih (Function.update ids (next node) c) c (next node) hc ?_ ?_ ?_ hfalse
          · have := numZeros_update n ids (next node) c hnlt h2 hc
            omega
          · intro j hj
            by_cases hji : j = next node
            · subst hji
              exact ⟨0, rfl⟩
            · rw [Function.update_apply, if_neg hji] at hj
              obtain ⟨m, hm⟩ := hR j hj
              refine ⟨m + 1, ?_⟩
              rw [iterChain_add, hm]
              simp [iterChain_one imp next node h]
          · intro j hjne hjc
            by_cases hji : j = next node
            · subst hji
              rw [Function.update_same] at hjc
              exact absurd rfl hjc
            · rw [Function.update_apply, if_neg hji] at hjne hjc
              exact hsafe j hjne hjc
    · rw [if_neg h] at hfalse ⊢
      intro j hj hcyc
      obtain ⟨m, hm⟩ := hR j hj
      have hnode : OnCycle imp next node := onCycle_reach imp next j node m hcyc hm
      have himp := onCycle_imp imp next node hnode
      rw [himp] at h
      exact h rfl

theorem outer_true_cycle (imp : Nat → Bool) (next : Nat → Nat) (n : Nat)
    (hn : ∀ i, imp i = true → next i < n) :
    ∀ (todo : List Nat) (ids : Nat → Nat) (c : Nat),
      c ≠ 0 →
      (∀ j, ids j < c) →
      implicitLoopOuter imp next n todo ids c = true →
      ∃ i, i < n ∧ OnCycle imp next i := by
  intro todo
  induction todo with
  | nil =>
    intro ids c _ _ h
    rw [implicitLoopOuter] at h
    cases h
  | cons i rest ih =>
    intro ids c hc hfresh htrue
    rw [implicitLoopOuter] at htrue
    by_cases hi : ids i ≠ 0
    · rw [if_pos hi] at htrue
      exact ih ids c hc hfresh htrue
    · rw [if_neg hi] at htrue
      dsimp only at htrue
      rcases hcw : chainWalk imp next c (n + 1) (Function.update ids i c) i with ⟨b, ids2⟩
      rw [hcw] at htrue
      cases b with
      | false =>
        refine ih ids2 (c + 1) (by omega) ?_ htrue
        intro j
        have hm := chainWalk_marks imp next c hc (n + 1) (Function.update ids i c) i j
        rw [hcw] at hm
        dsimp only at hm
        rcases hm with hm | ⟨_, hm⟩
        · rw [hm, Function.update_apply]
          by_cases hji : j = i
          · rw [if_pos hji]
            omega
          · rw [if_neg hji]
            have := hfresh j
            omega
        · rw [hm]
          omega
      | true =>
        refine chainWalk_true_cycle imp next n hn (n + 1)
          (Function.update ids i c) c i ?_ (by rw [hcw])
        intro j hj
        by_cases hji : j = i
        · subst hji
          exact ⟨0, rfl⟩
        · rw [Function.update_apply, if_neg hji] at hj
          have := hfresh j
          omega

theorem outer_false_safe (imp : Nat → Bool) (next : Nat → Nat) (n : Nat)
    (hn : ∀ i, imp i = true → next i < n) :
    ∀ (todo : List Nat) (ids : Nat → Nat) (c : Nat),
      c ≠ 0 →
      (∀ j, ids j < c) →
      (∀ j, ids j ≠ 0 → ¬ OnCycle imp next j) →
      implicitLoopOuter imp next n todo ids c = false →
      ∀ i ∈ todo, ¬ OnCycle imp next i := by
  intro todo
  induction todo with
  | nil =>
    intro ids c _ _ _ _ i hi
    cases hi
  | cons i rest ih =>
    intro ids c hc hfresh hsafe hfalse
    rw [implicitLoopOuter] at hfalse
    by_cases hi : ids i ≠ 0
    · rw [if_pos hi] at hfalse
      intro x hx
      rcases List.mem_cons.mp hx with rfl | hx'
      · exact hsafe x hi
      · exact ih ids c hc hfresh hsafe hfalse x hx'
    · rw [if_neg hi] at hfalse
      push_neg at hi
      dsimp only at hfalse
      rcases hcw : chainWalk imp next c (n + 1) (Function.update ids i c) i with ⟨b, ids2⟩
      rw [hcw] at hfalse
      cases b with
      | true => cases hfalse
      | false =>
        have hRstart : ∀ j, Function.update ids i c j = c →
            ∃ m, iterChain imp next m j = some i := by
          intro j hj
          by_cases hji : j = i
          · subst hji
            exact ⟨0, rfl⟩
          · rw [Function.update_apply, if_neg hji] at hj
            have := hfresh j
            omega
        have hsafe1 : ∀ j, Function.update ids i c j ≠ 0 →
            Function.update ids i c j ≠ c → ¬ OnCycle imp next j := by
          intro j hjne hjc
          by_cases hji : j = i
          · subst hji
            rw [Function.update_same] at hjc
            exact absurd rfl hjc
          · rw [Function.update_apply, if_neg hji] at hjne
            exact hsafe j hjne
        have hzfuel : numZeros n (Function.update ids i c) < n + 1 := by
          have := numZeros_le n (Function.update ids i c)
          omega
        have hmarks := chainWalk_false_safe imp next n hn (n + 1)
          (Function.update ids i c) c i hc hzfuel hRstart hsafe1 (by rw [hcw])
        rw [hcw] at hmarks
        dsimp only at hmarks
        intro x hx
        rcases List.mem_cons.mp hx with rfl | hx'
        · apply hmarks x
          have hm := chainWalk_marks imp next c hc (n + 1) (Function.update ids x c) x x
          rw [hcw] at hm
          dsimp only at hm
          rcases hm with hm | ⟨_, hm⟩
          · rw [hm, Function.update_same]
          · exact hm
        · refine ih ids2 (c + 1) (by omega) ?_ ?_ hfalse x hx'
          · intro j
            have hm := chainWalk_marks imp next c hc (n + 1) (Function.update ids i c) i j
            rw [hcw] at hm
            dsimp only at hm
            rcases hm with hm | ⟨_, hm⟩
            · rw [hm, Function.update_apply]
              by_cases hji : j = i
              · rw [if_pos hji]
                omega
              · rw [if_neg hji]
                have := hfresh j
                omega
            · rw [hm]
              omega
          · intro j hjne
            have hm := chainWalk_marks imp next c hc (n + 1) (Function.update ids i c) i j
            rw [hcw] at hm
            dsimp only at hm
            rcases hm with hm | ⟨_, hm⟩
            · rw [hm] at hjne
              by_cases hji : j = i
              · subst hji
                apply hmarks j
                rw [hm, Function.update_same]
              · rw [Function.update_apply, if_neg hji] at hjne
                exact hsafe j hjne
            · exact hmarks j hm

/-- C1: `TransposeDecoder::Parse` fails with `INVALID_ARGUMENT` and
message "Nodes contain an implicit loop" if and only if some node is
reachable from itself by following only edges of nodes whose callback
type carries the IMPLICIT flag; for every state machine without such a
cycle, `ContainsImplicitLoop` reports `false` and decoding proceeds
past the check. -/
theorem C1_implicit_loop_detection (n : Nat) (imp : Nat → Bool) (next : Nat → Nat)
    (hn : ∀ i, imp i = true → next i < n) :
    (parseImplicitLoopCheck n imp next
        = some ⟨StatusCode.invalidArgument, "Nodes contain an implicit loop"⟩
      ↔ ∃ i, i < n ∧ ∃ k, 0 < k ∧ iterChain imp next k i = some i)
      ∧ (parseImplicitLoopCheck n imp next = none
        ↔ ¬ ∃ i, i < n ∧ ∃ k, 0 < k ∧ iterChain imp next k i = some i) := by
  have hiff : ContainsImplicitLoop n imp next = true
      ↔ ∃ i, i < n ∧ OnCycle imp next i := by
    constructor
    · intro h
      exact outer_true_cycle imp next n hn (List.range n) (fun _ => 0) 1
        (by omega) (fun j => by show (0 : Nat) < 1; omega) h
    · rintro ⟨i, hi, hcyc⟩
      by_contra hfalse
      have hf : ContainsImplicitLoop n imp next = false := by
        cases hcl : ContainsImplicitLoop n imp next
        · rfl
        · exact absurd hcl hfalse
      exact outer_false_safe imp next n hn (List.range n) (fun _ => 0) 1
        (by omega) (fun j => by show (0 : Nat) < 1; omega) (fun j hj => absurd rfl hj) hf i
        (List.mem_range.mpr hi) hcyc
  constructor
  · constructor
    · intro h
      rw [parseImplicitLoopCheck] at h
      by_cases hb : ContainsImplicitLoop n imp next
      · exact hiff.mp hb
      · rw [if_neg hb] at h
        cases h
    · intro hcyc
      rw [parseImplicitLoopCheck, if_pos (hiff.mpr hcyc)]
  · constructor
    · intro h hcyc
      rw [parseImplicitLoopCheck, if_pos (hiff.mpr hcyc)] at h
      cases h
    · intro hncyc
      rw [parseImplicitLoopCheck, if_neg ?_]
      intro hb
      exact hncyc (hiff.mp hb)

/-- Witness for C1: a two-node machine whose node 0 is implicit and
points at itself is rejected with the implicit-loop error. -/
theorem C1_implicit_loop_detection_witness :
    parseImplicitLoopCheck 2 (fun i => decide (i = 0)) (fun _ => 0)
      = some ⟨StatusCode.invalidArgument, "Nodes contain an implicit loop"⟩ := by
  refine (C1_implicit_loop_detection 2 (fun i => decide (i = 0)) (fun _ => 0)
    (fun i _ => by show (0 : Nat) < 2; omega)).1.mpr ⟨0, by omega, 1, by omega, by decide⟩

/-! ### Transpose decoder: the main decode loop (`TransposeDecoder::Decode`)

The decoder is modelled in its non-projection configuration (the
projection-only callbacks `kSelectCallback`,
`kStartProjectionGroup_*` and `kEndProjectionGroup_*` are not
produced by `Parse` when no field projection is installed).  The
callback types `kVarint_k_n`, `kFixed{32,64}_n`,
`kFixed{32,64}Existence_n`, `kCopyTag_n` and `kString_n` are indexed by
their data length `k` and tag length `n` instead of being spelled out as
the 91 separate enum values generated by `TYPES_FOR_TAG_LEN`.  The
backward writer `dest` is modelled by its forward contents (a backward
write prepends), so `dest.pos()` is `dest.length`.  Data buffers are
shared byte lists consumed from the front; the transition stream is the
list of its remaining bytes. -/

/-- Callback type of a state machine node, with the IMPLICIT bit kept
separately in the node. -/
inductive CallbackType where
  | noOp
  | messageStart
  | submessageStart
  | submessageEnd
  | skippedSubmessageStart
  | skippedSubmessageEnd
  | nonProto
  | failure
  | unknown
  | copyTag (tagLength : Nat)
  | varint (dataLength tagLength : Nat)
  | fixed (dataLength tagLength : Nat)
  | fixedExistence (dataLength tagLength : Nat)
  | stringCb (tagLength : Nat)
  deriving DecidableEq, Repr

/-- One state machine node: masked callback type, the IMPLICIT bit,
`next_node` as an index, the pre-encoded `tag_data`, and the index of
the shared data buffer `node->buffer` points at. -/
structure StateMachineNode where
  callbackType : CallbackType
  implicit : Bool
  nextNode : Nat
  tagData : List Nat
  bufferIndex : Option Nat
  deriving DecidableEq, Repr

/-- Out-of-range node accesses behave like the `kFailure` guard nodes
(`state_machine_nodes` is padded with `0xff` failure nodes so that the
C++ never indexes beyond them; the model's default keeps even a
hypothetical overshoot failing cleanly). -/
def defaultNode : StateMachineNode :=
  ⟨CallbackType.failure, false, 0, [], none⟩

/-- Decoder context produced by `Parse`: the node table (of length
`state_machine_size + 0xff`), its logical size, and the initial node. -/
structure DecodeContext where
  stateMachineSize : Nat
  nodes : List StateMachineNode
  firstNode : Nat
  deriving DecidableEq, Repr

/-- Mutable state of the decode loop. -/
structure DecodeState where
  nodeIndex : Nat
  numIters : Nat
  skippedLevel : Nat
  stack : List (Nat × List Nat)
  limits : List Nat
  dest : List Nat
  buffers : List (List Nat)
  nonproto : List Nat
  transitions : List Nat
  deriving DecidableEq, Repr

/-- Result of one iteration of the decode loop. -/
inductive StepResult where
  | next (st : DecodeState)
  | done (st : DecodeState)
  | failed (st : Status)
  deriving DecidableEq, Repr

/-- Final result of `Decode`. -/
inductive DecodeOutcome where
  | ok (limits : List Nat) (dest : List Nat)
  | failed (st : Status)
  | outOfFuel
  deriving DecidableEq, Repr

/-- Modelled from the spec: the varint reader of
`riegeli/varint/varint_reading.h` (the header is not under `src/`).  It
peeks a protobuf varint of at most `maxLength` bytes from the front of
a buffer — low 7 bits of each byte, least significant group first, the
high bit marking continuation — and returns the value with the number
of bytes it occupies; spec §8: "Varint length: 1 byte for values
`< 0x80` ... capped at 5 for 32-bit". -/
def readVarintPeek : Nat → List Nat → Option (Nat × Nat)
  | 0, _ => none
  | _ + 1, [] => none
  | maxLength + 1, b :: rest =>
    if b < 0x80 then some (b, 1)
    else
      match readVarintPeek maxLength rest with
      | none => none
      | some (v, k) => some (b % 0x80 + v * 0x80, k + 1)

/-- Modelled from the spec: `ReadVarint32(cursor, limit)`, a
non-consuming 32-bit varint read (the value accumulates in a `uint32_t`,
hence the final reduction). -/
def ReadVarint32Peek (bytes : List Nat) : Option (Nat × Nat) :=
  match readVarintPeek 5 bytes with
  | none => none
  | some (v, k) => some (v % 2 ^ 32, k)

/-- Modelled from the spec: the consuming `ReadVarint32(reader)` used on
the `nonproto_lengths` buffer. -/
def readVarint32Consume (bytes : List Nat) : Option (Nat × List Nat) :=
  match readVarintPeek 5 bytes with
  | none => none
  | some (v, k) => some (v % 2 ^ 32, bytes.drop k)

/-- Reads `k` bytes from the shared buffer a node points at
(`node->buffer->Read(k, ...)` / `node->buffer->Copy(k, dest)`): fails
when the buffer holds fewer than `k` bytes, else yields the bytes and
the buffers with the source buffer advanced. -/
def readFromBuffer (buffers : List (List Nat)) (idx : Option Nat) (k : Nat) :
    Option (List Nat × List (List Nat)) :=
  match idx with
  | none => none
  | some i =>
    let buf := buffers.getD i []
    if buf.length < k then none
    else some (buf.take k, buffers.set i (buf.drop k))

/-- The byte list a node's string callback peeks its length varint from. -/
def stringCallbackBuffer (st : DecodeState) (node : StateMachineNode) : List Nat :=
  match node.bufferIndex with
  | some i => st.buffers.getD i []
  | none => []

/-- Embeds the high-bit marking of `VARINT_CALLBACK`:
`for (size_t i = 0; i < data_length - 1; ++i) buffer[tag_length + i] |= 0x80;`
— the continuation bit is set on every data byte except the last. -/
def setVarintHighBits : List Nat → List Nat
  | [] => []
  | [b] => [b]
  | b :: b2 :: rest => (b ||| 0x80) :: setVarintHighBits (b2 :: rest)

/-- Embeds the `do_transition` tail of the decode loop:
`node = node->next_node; if (num_iters == 0) { read transition byte or
finish; node += t >> 2; num_iters = t & 3; if implicit ++num_iters; }
else { if (!implicit) --num_iters; }`. -/
def doTransition (ctx : DecodeContext) (st : DecodeState) : StepResult :=
  let node := ctx.nodes.getD st.nodeIndex defaultNode
  let nodeIndex1 := node.nextNode
  if st.numIters = 0 then
    match st.transitions with
    | [] => StepResult.done { st with nodeIndex := nodeIndex1 }
    | t :: rest =>
      let nodeIndex2 := nodeIndex1 + (t >>> 2)
      let node2 := ctx.nodes.getD nodeIndex2 defaultNode
      let iters := if node2.implicit then (t &&& 3) + 1 else t &&& 3
      StepResult.next
        { st with nodeIndex := nodeIndex2, numIters := iters, transitions := rest }
  else
    let node1 := ctx.nodes.getD nodeIndex1 defaultNode
    let iters := if node1.implicit then st.numIters else st.numIters - 1
    StepResult.next { st with nodeIndex := nodeIndex1, numIters := iters }

/-- Embeds the `kMessageStart` case (also the tail of the `kNonProto`
fallthrough): reject open submessages, reject a full `limits` vector
with "Too many records", then push `dest.pos()` and transition. -/
def messageStartStep (ctx : DecodeContext) (numRecords : Nat) (st : DecodeState) :
    StepResult :=
  if st.stack ≠ [] then
    StepResult.failed ⟨StatusCode.invalidArgument, "Submessages still open"⟩
  else if st.limits.length = numRecords then
    StepResult.failed ⟨StatusCode.invalidArgument, "Too many records"⟩
  else doTransition ctx { st with limits := st.limits ++ [st.dest.length] }

/-- Embeds one iteration of the `for (;;) switch (...)` decode loop,
dispatching on the masked callback type of the current node.  A
backward write of `bytes` prepends `bytes` to the forward contents of
`dest`; `VARINT_CALLBACK` sets the high bit on all data bytes but the
last, `FIXED_EXISTENCE_CALLBACK` writes zeros, `STRING_CALLBACK` peeks
the length varint and then copies `length_length + value` bytes
(`node->buffer->Copy(length_length + size_t{length->value}, dest)`)
before writing the tag. -/
def decodeStep (ctx : DecodeContext) (numRecords : Nat) (st : DecodeState) :
    StepResult :=
  let node := ctx.nodes.getD st.nodeIndex defaultNode
  match node.callbackType with
  | CallbackType.noOp => doTransition ctx st
  | CallbackType.messageStart => messageStartStep ctx numRecords st
  | CallbackType.skippedSubmessageEnd =>
    doTransition ctx { st with skippedLevel := st.skippedLevel + 1 }
  | CallbackType.skippedSubmessageStart =>
    if st.skippedLevel = 0 then
      StepResult.failed ⟨StatusCode.invalidArgument, "Skipped submessage stack underflow"⟩
    else doTransition ctx { st with skippedLevel := st.skippedLevel - 1 }
  | CallbackType.submessageEnd =>
    doTransition ctx { st with stack := (st.dest.length, node.tagData) :: st.stack }
  | CallbackType.submessageStart =>
    match st.stack with
    | [] => StepResult.failed ⟨StatusCode.invalidArgument, "Submessage stack underflow"⟩
    | (endPos, tag) :: stackRest =>
      let length := st.dest.length - endPos
      if 2 ^ 32 - 1 < length then
        StepResult.failed ⟨StatusCode.invalidArgument, "Message too large"⟩
      else
        doTransition ctx { st with
          dest := tag ++ writeVarint length ++ st.dest
          stack := stackRest }
  | CallbackType.copyTag n =>
    doTransition ctx { st with dest := node.tagData.take n ++ st.dest }
  | CallbackType.varint k n =>
    match readFromBuffer st.buffers node.bufferIndex k with
    | none => StepResult.failed ⟨StatusCode.invalidArgument, "Reading varint field failed"⟩
    | some (bytes, buffers2) =>
      doTransition ctx { st with
        dest := node.tagData.take n ++ setVarintHighBits bytes ++ st.dest
        buffers := buffers2 }
  | CallbackType.fixed k n =>
    match readFromBuffer st.buffers node.bufferIndex k with
    | none => StepResult.failed ⟨StatusCode.invalidArgument, "Reading fixed field failed"⟩
    | some (bytes, buffers2) =>
      doTransition ctx { st with
        dest := node.tagData.take n ++ bytes ++ st.dest
        buffers := buffers2 }
  | CallbackType.fixedExistence k n =>
    doTransition ctx { st with
      dest := node.tagData.take n ++ List.replicate k 0 ++ st.dest }
  | CallbackType.stringCb n =>
    match ReadVarint32Peek (stringCallbackBuffer st node) with
    | none => StepResult.failed ⟨StatusCode.invalidArgument, "Reading string length failed"⟩
    | some (value, lengthLength) =>
      if 2 ^ 32 - 1 - lengthLength < value then
        StepResult.failed ⟨StatusCode.invalidArgument, "String length overflow"⟩
      else
        match readFromBuffer st.buffers node.bufferIndex (lengthLength + value) with
        | none =>
          StepResult.failed ⟨StatusCode.invalidArgument, "Reading string field failed"⟩
        | some (bytes, buffers2) =>
          doTransition ctx { st with
            dest := node.tagData.take n ++ bytes ++ st.dest
            buffers := buffers2 }
  | CallbackType.nonProto =>
    match readVarint32Consume st.nonproto with
    | none =>
      StepResult.failed ⟨StatusCode.invalidArgument, "Reading non-proto record length failed"⟩
    | some (len, nonproto2) =>
      match readFromBuffer st.buffers node.bufferIndex len with
      | none =>
        StepResult.failed ⟨StatusCode.invalidArgument, "Reading non-proto record failed"⟩
      | some (bytes, buffers2) =>
        messageStartStep ctx numRecords { st with
          dest := bytes ++ st.dest
          nonproto := nonproto2
          buffers := buffers2 }
  | CallbackType.failure =>
    StepResult.failed ⟨StatusCode.invalidArgument, "Invalid node index"⟩
  | CallbackType.unknown =>
    StepResult.failed ⟨StatusCode.invalidArgument, "Invalid node index"⟩

/-- Embeds the reverse-and-complement postlude of `Decode`: the
two-pointer in-place loop whose effect the code comment documents as
`{40, 70, 90, 100} -> {10, 30, 60, 100}` for `size = 100` — every entry
except the last becomes `size` minus its mirror image among the first
`m - 1` entries, the last entry stays. -/
def reverseComplementLimits (limits : List Nat) (size : Nat) : List Nat :=
  match limits with
  | [] => []
  | _ => ((limits.dropLast.map fun l => size - l).reverse) ++ [size]

/-- Embeds the `done:` epilogue of `Decode`: the transition stream must
have been fully consumed (inherent in the model), all submessage stacks
must be closed, `limits` must hold exactly `num_records` entries
("Too few records" otherwise), the last limit must equal `dest.pos()`,
and the limits are reversed and complemented. -/
def decodeFinish (numRecords : Nat) (st : DecodeState) : DecodeOutcome :=
  if st.stack ≠ [] then
    DecodeOutcome.failed ⟨StatusCode.invalidArgument, "Submessages still open"⟩
  else if st.skippedLevel ≠ 0 then
    DecodeOutcome.failed ⟨StatusCode.invalidArgument, "Skipped submessages still open"⟩
  else if st.limits.length ≠ numRecords then
    DecodeOutcome.failed ⟨StatusCode.invalidArgument, "Too few records"⟩
  else
    let size := st.limits.getLastD 0
    if size ≠ st.dest.length then
      DecodeOutcome.failed ⟨StatusCode.invalidArgument, "Unfinished message"⟩
    else DecodeOutcome.ok (reverseComplementLimits st.limits size) st.dest

/-- The decode loop, one `decodeStep` per fuel unit (`Parse` rejects
implicit loops precisely so this loop terminates; the fuel makes the
model total without deciding termination). -/
def decodeLoop (ctx : DecodeContext) (numRecords : Nat) :
    Nat → DecodeState → DecodeOutcome
  | 0, _ => DecodeOutcome.outOfFuel
  | fuel + 1, st =>
    match decodeStep ctx numRecords st with
    | StepResult.next st2 => decodeLoop ctx numRecords fuel st2
    | StepResult.done st2 => decodeFinish numRecords st2
    | StepResult.failed e => DecodeOutcome.failed e

/-- Embeds `TransposeDecoder::Decode(context, num_records, dest, limits)`:
start at `first_node` (with one pending implicit iteration when the
initial node is itself implicit) and run the loop. -/
def Decode (ctx : DecodeContext) (numRecords : Nat) (buffers : List (List Nat))
    (nonproto transitions : List Nat) (fuel : Nat) : DecodeOutcome :=
  let node0 := ctx.nodes.getD ctx.firstNode defaultNode
  decodeLoop ctx numRecords fuel
    { nodeIndex := ctx.firstNode
      numIters := if node0.implicit then 1 else 0
      skippedLevel := 0
      stack := []
      limits := []
      dest := []
      buffers := buffers
      nonproto := nonproto
      transitions := transitions }

theorem doTransition_next_zero (ctx : DecodeContext) (st st2 : DecodeState)
    (h0 : st.numIters = 0)
    (h : doTransition ctx st = StepResult.next st2) :
    ∃ t rest, st.transitions = t :: rest
      ∧ st2 = { st with
          nodeIndex := (ctx.nodes.getD st.nodeIndex defaultNode).nextNode + (t >>> 2)
          numIters :=
            if (ctx.nodes.getD
                ((ctx.nodes.getD st.nodeIndex defaultNode).nextNode + (t >>> 2))
                defaultNode).implicit
            then (t &&& 3) + 1 else t &&& 3
          transitions := rest } := by
  rw [doTransition, if_pos h0] at h
  cases htr : st.transitions with
  | nil =>
    rw [htr] at h
    cases h
  | cons t rest =>
    rw [htr] at h
    dsimp only at h
    injection h with h2
    exact ⟨t, rest, rfl, h2.symm⟩

theorem doTransition_next_node (ctx : DecodeContext) (st st2 : DecodeState)
    (h : doTransition ctx st = StepResult.next st2) :
    (∃ t ∈ st.transitions,
        st2.nodeIndex = (ctx.nodes.getD st.nodeIndex defaultNode).nextNode + (t >>> 2))
      ∨ st2.nodeIndex = (ctx.nodes.getD st.nodeIndex defaultNode).nextNode := by
  rw [doTransition] at h
  by_cases h0 : st.numIters = 0
  · rw [if_pos h0] at h
    cases htr : st.transitions with
    | nil =>
      rw [htr] at h
      cases h
    | cons t rest =>
      rw [htr] at h
      dsimp only at h
      injection h with h2
      left
      refine ⟨t, by simp [htr], ?_⟩
      rw [← h2]
  · rw [if_neg h0] at h
    dsimp only at h
    injection h with h2
    right
    rw [← h2]

theorem doTransition_frame (ctx : DecodeContext) (st st2 : DecodeState)
    (h : doTransition ctx st = StepResult.next st2
      ∨ doTransition ctx st = StepResult.done st2) :
    st2.dest = st.dest ∧ st2.limits = st.limits ∧ st2.stack = st.stack
      ∧ st2.skippedLevel = st.skippedLevel := by
  rw [doTransition] at h
  by_cases h0 : st.numIters = 0
  · rw [if_pos h0] at h
    cases htr : st.transitions with
    | nil =>
      rw [htr] at h
      rcases h with h | h
      · cases h
      · injection h with h2
        rw [← h2]
        exact ⟨rfl, rfl, rfl, rfl⟩
    | cons t rest =>
      rw [htr] at h
      dsimp only at h
      rcases h with h | h
      · injection h with h2
        rw [← h2]
        exact ⟨rfl, rfl, rfl, rfl⟩
      · cases h
  · rw [if_neg h0] at h
    dsimp only at h
    rcases h with h | h
    · injection h with h2
      rw [← h2]
      exact ⟨rfl, rfl, rfl, rfl⟩
    · cases h

theorem decodeStep_next_funnel (ctx : DecodeContext) (numRecords : Nat)
    (st st2 : DecodeState)
    (h : decodeStep ctx numRecords st = StepResult.next st2) :
    ∃ st1 : DecodeState, st1.numIters = st.numIters
      ∧ st1.transitions = st.transitions
      ∧ st1.nodeIndex = st.nodeIndex
      ∧ doTransition ctx st1 = StepResult.next st2 := by
  unfold decodeStep at h
  dsimp only at h
  cases hcb : (ctx.nodes.getD st.nodeIndex defaultNode).callbackType with
  | noOp =>
    rw [hcb] at h
    dsimp only at h
    refine ⟨_, ?_, ?_, ?_, h⟩ <;> rfl
  | messageStart =>
    rw [hcb] at h
    dsimp only at h
    rw [messageStartStep] at h
    by_cases h1 : st.stack ≠ []
    · rw [if_pos h1] at h
      cases h
    · rw [if_neg h1] at h
      by_cases h2 : st.limits.length = numRecords
      · rw [if_pos h2] at h
        cases h
      · rw [if_neg h2] at h
        refine ⟨_, ?_, ?_, ?_, h⟩ <;> rfl
  | skippedSubmessageEnd =>
    rw [hcb] at h
    dsimp only at h
    refine ⟨_, ?_, ?_, ?_, h⟩ <;> rfl
  | skippedSubmessageStart =>
    rw [hcb] at h
    dsimp only at h
    by_cases h1 : st.skippedLevel = 0
    · rw [if_pos h1] at h
      cases h
    · rw [if_neg h1] at h
      refine ⟨_, ?_, ?_, ?_, h⟩ <;> rfl
  | submessageEnd =>
    rw [hcb] at h
    dsimp only at h
    refine ⟨_, ?_, ?_, ?_, h⟩ <;> rfl
  | submessageStart =>
    rw [hcb] at h
    dsimp only at h
    cases hstk : st.stack with
    | nil =>
      rw [hstk] at h
      cases h
    | cons top stackRest =>
      rw [hstk] at h
      obtain ⟨endPos, tag⟩ := top
      dsimp only at h
      by_cases h1 : 2 ^ 32 - 1 < st.dest.length - endPos
      · rw [if_pos h1] at h
        cases h
      · rw [if_neg h1] at h
        refine ⟨_, ?_, ?_, ?_, h⟩ <;> rfl
  | copyTag n =>
    rw [hcb] at h
    dsimp only at h
    refine ⟨_, ?_, ?_, ?_, h⟩ <;> rfl
  | varint k n =>
    rw [hcb] at h
    dsimp only at h
    cases hrb : readFromBuffer st.buffers
        (ctx.nodes.getD st.nodeIndex defaultNode).bufferIndex k with
    | none =>
      rw [hrb] at h
      cases h
    | some pair =>
      rw [hrb] at h
      obtain ⟨bytes, buffers2⟩ := pair
      dsimp only at h
      refine ⟨_, ?_, ?_, ?_, h⟩ <;> rfl
  | fixed k n =>
    rw [hcb] at h
    dsimp only at h
    cases hrb : readFromBuffer st.buffers
        (ctx.nodes.getD st.nodeIndex defaultNode).bufferIndex k with
    | none =>
      rw [hrb] at h
      cases h
    | some pair =>
      rw [hrb] at h
      obtain ⟨bytes, buffers2⟩ := pair
      dsimp only at h
      refine ⟨_, ?_, ?_, ?_, h⟩ <;> rfl
  | fixedExistence k n =>
    rw [hcb] at h
    dsimp only at h
    refine ⟨_, ?_, ?_, ?_, h⟩ <;> rfl
  | stringCb n =>
    rw [hcb] at h
    dsimp only at h
    cases hpk : ReadVarint32Peek
        (stringCallbackBuffer st (ctx.nodes.getD st.nodeIndex defaultNode)) with
    | none =>
      rw [hpk] at h
      cases h
    | some pair =>
      rw [hpk] at h
      obtain ⟨value, lengthLength⟩ := pair
      dsimp only at h
      by_cases h1 : 2 ^ 32 - 1 - lengthLength < value
      · rw [if_pos h1] at h
        cases h
      · rw [if_neg h1] at h
        cases hrb : readFromBuffer st.buffers
            (ctx.nodes.getD st.nodeIndex defaultNode).bufferIndex
            (lengthLength + value) with
        | none =>
          rw [hrb] at h
          cases h
        | some pair2 =>
          rw [hrb] at h
          obtain ⟨bytes, buffers2⟩ := pair2
          dsimp only at h
          refine ⟨_, ?_, ?_, ?_, h⟩ <;> rfl
  | nonProto =>
    rw [hcb] at h
    dsimp only at h
    cases hnp : readVarint32Consume st.nonproto with
    | none =>
      rw [hnp] at h
      cases h
    | some pair =>
      rw [hnp] at h
      obtain ⟨len, nonproto2⟩ := pair
      dsimp only at h
      cases hrb : readFromBuffer st.buffers
          (ctx.nodes.getD st.nodeIndex defaultNode).bufferIndex len with
      | none =>
        rw [hrb] at h
        cases h
      | some pair2 =>
        rw [hrb] at h
        obtain ⟨bytes, buffers2⟩ := pair2
        dsimp only at h
        rw [messageStartStep] at h
        dsimp only at h
        by_cases h1 : st.stack ≠ []
        · rw [if_pos h1] at h
          cases h
        · rw [if_neg h1] at h
          by_cases h2 : st.limits.length = numRecords
          · rw [if_pos h2] at h
            cases h
          · rw [if_neg h2] at h
            refine ⟨_, ?_, ?_, ?_, h⟩ <;> rfl
  | failure =>
    rw [hcb] at h
    dsimp only at h
    cases h
  | unknown =>
    rw [hcb] at h
    dsimp only at h
    cases h

/-- C2: in the main decode loop, whenever `num_iters` is zero, a
successfully continuing step consumes exactly one transition byte `t`,
advances the state by `t >> 2` nodes from `node->next_node`, and sets
the pending implicit-iteration counter to `t & 3`, incremented once
more when the new node's callback type carries the IMPLICIT flag. -/
theorem C2_transition_byte_encoding (ctx : DecodeContext) (numRecords : Nat)
    (st st2 : DecodeState) (h0 : st.numIters = 0)
    (hstep : decodeStep ctx numRecords st = StepResult.next st2) :
    ∃ t rest, st.transitions = t :: rest
      ∧ st2.transitions = rest
      ∧ st2.nodeIndex = (ctx.nodes.getD st.nodeIndex defaultNode).nextNode + (t >>> 2)
      ∧ st2.numIters = (t &&& 3)
          + (if (ctx.nodes.getD st2.nodeIndex defaultNode).implicit then 1 else 0) := by
  obtain ⟨st1, hiters, htrans, hnode, hdt⟩ :=
    decodeStep_next_funnel ctx numRecords st st2 hstep
  obtain ⟨t, rest, htr, hst2⟩ :=
    doTransition_next_zero ctx st1 st2 (by rw [hiters, h0]) hdt
  refine ⟨t, rest, by rw [← htrans, htr], ?_, ?_, ?_⟩
  · rw [hst2]
  · rw [hst2]
    dsimp only
    rw [hnode]
  · have hni : st2.nodeIndex
        = (ctx.nodes.getD st.nodeIndex defaultNode).nextNode + (t >>> 2) := by
      rw [hst2]
      dsimp only
      rw [hnode]
    rw [hst2]
    dsimp only
    rw [hnode, ← hni]
    by_cases hb : (ctx.nodes.getD st2.nodeIndex defaultNode).implicit
    · rw [if_pos hb, if_pos hb]
    · rw [if_neg hb, if_neg hb]
      omega

/-- Witness for C2: a two-node machine stepping with transition byte 6
(`delta = 1`, `extra_iters = 2`). -/
theorem C2_transition_byte_encoding_witness :
    ∃ t rest, ([6] : List Nat) = t :: rest
      ∧ (⟨2, 2, 0, [], [], [], [], [], []⟩ : DecodeState).transitions = rest
      ∧ (⟨2, 2, 0, [], [], [], [], [], []⟩ : DecodeState).nodeIndex
          = ((DecodeContext.mk 2
              [⟨CallbackType.noOp, false, 1, [], none⟩,
                ⟨CallbackType.noOp, false, 0, [], none⟩] 0).nodes.getD
            (⟨0, 0, 0, [], [], [], [], [], [6]⟩ : DecodeState).nodeIndex
            defaultNode).nextNode + (t >>> 2)
      ∧ (⟨2, 2, 0, [], [], [], [], [], []⟩ : DecodeState).numIters = (t &&& 3)
          + (if ((DecodeContext.mk 2
              [⟨CallbackType.noOp, false, 1, [], none⟩,
                ⟨CallbackType.noOp, false, 0, [], none⟩] 0).nodes.getD
              (⟨2, 2, 0, [], [], [], [], [], []⟩ : DecodeState).nodeIndex
              defaultNode).implicit then 1 else 0) := by
  have h := C2_transition_byte_encoding
    (DecodeContext.mk 2
      [⟨CallbackType.noOp, false, 1, [], none⟩,
        ⟨CallbackType.noOp, false, 0, [], none⟩] 0) 0
    ⟨0, 0, 0, [], [], [], [], [], [6]⟩ ⟨2, 2, 0, [], [], [], [], [], []⟩ rfl rfl
  exact h

/-- Embeds the next-node validation of `Parse` (the lines around
"Node index too large"): a raw index at least `state_machine_size`
encodes an implicit transition and has `state_machine_size` subtracted
once; if the result is still not below `state_machine_size`, parsing
fails with INVALID_ARGUMENT. -/
def validateNextNodeIndex (stateMachineSize rawIndex : Nat) :
    Except Status (Nat × Bool) :=
  let nextNodeId :=
    if stateMachineSize ≤ rawIndex then rawIndex - stateMachineSize else rawIndex
  if stateMachineSize ≤ nextNodeId then
    Except.error ⟨StatusCode.invalidArgument, "Node index too large"⟩
  else
    Except.ok (nextNodeId, decide (stateMachineSize ≤ rawIndex))

/-- Well-formedness established by a successful `Parse`: the node table
has `state_machine_size + 0xff` entries, the first node and every
parsed `next_node` lie below `state_machine_size`, and the extra `0xff`
entries are `kFailure` guard nodes. -/
def ctxWF (ctx : DecodeContext) : Prop :=
  ctx.nodes.length = ctx.stateMachineSize + 0xff
    ∧ ctx.firstNode < ctx.stateMachineSize
    ∧ (∀ i < ctx.stateMachineSize,
        (ctx.nodes.getD i defaultNode).nextNode < ctx.stateMachineSize)
    ∧ (∀ i < ctx.nodes.length, ctx.stateMachineSize ≤ i →
        (ctx.nodes.getD i defaultNode).callbackType = CallbackType.failure)

theorem decodeStep_guard_fail (ctx : DecodeContext) (numRecords : Nat)
    (st : DecodeState)
    (hguard : ∀ i < ctx.nodes.length, ctx.stateMachineSize ≤ i →
        (ctx.nodes.getD i defaultNode).callbackType = CallbackType.failure)
    (hge : ctx.stateMachineSize ≤ st.nodeIndex) :
    decodeStep ctx numRecords st
      = StepResult.failed ⟨StatusCode.invalidArgument, "Invalid node index"⟩ := by
  have hfail : (ctx.nodes.getD st.nodeIndex defaultNode).callbackType
      = CallbackType.failure := by
    by_cases hlt : st.nodeIndex < ctx.nodes.length
    · exact hguard st.nodeIndex hlt hge
    · have hd : ctx.nodes.getD st.nodeIndex defaultNode = defaultNode :=
        List.getD_eq_default _ _ (by omega)
      rw [hd]
      rfl
  unfold decodeStep
  dsimp only
  rw [hfail]

theorem decodeStep_next_bound (ctx : DecodeContext) (numRecords : Nat)
    (st st2 : DecodeState) (hwf : ctxWF ctx)
    (htb : ∀ t ∈ st.transitions, t < 256)
    (hnext : decodeStep ctx numRecords st = StepResult.next st2) :
    st2.nodeIndex < ctx.stateMachineSize + 64 := by
  obtain ⟨hlen, hfirst, hnn, hguard⟩ := hwf
  have hcur : st.nodeIndex < ctx.stateMachineSize := by
    by_contra hge
    rw [decodeStep_guard_fail ctx numRecords st hguard (by omega)] at hnext
    cases hnext
  have hnx : (ctx.nodes.getD st.nodeIndex defaultNode).nextNode
      < ctx.stateMachineSize := hnn st.nodeIndex hcur
  obtain ⟨st1, _, htrans, hnode, hdt⟩ :=
    decodeStep_next_funnel ctx numRecords st st2 hnext
  rcases doTransition_next_node ctx st1 st2 hdt with ⟨t, ht, heq⟩ | heq
  · have ht256 : t < 256 := htb t (htrans ▸ ht)
    have hsh : t >>> 2 ≤ 63 := by
      rw [Nat.shiftRight_eq_div_pow]
      omega
    rw [heq, hnode]
    omega
  · rw [heq, hnode]
    omega

/-- C9 (implicit): the transpose decoder's node indexing stays in
bounds.  Validation accepts exactly the raw indices below
`2 * state_machine_size`, subtracting `state_machine_size` once for
implicit encoding and failing with "Node index too large" otherwise;
with a well-formed table (size + 0xff entries, guard nodes kFailure,
parsed next-nodes in range) and byte-valued transitions, every
continuing step lands below `state_machine_size + 64`, inside the
table; and a step starting in the guard region fails cleanly with
INVALID_ARGUMENT "Invalid node index". -/
theorem C9_node_indexing_in_bounds (ctx : DecodeContext) (numRecords : Nat)
    (st st2 : DecodeState) (sizeRaw rawIndex : Nat)
    (hwf : ctxWF ctx)
    (htb : ∀ t ∈ st.transitions, t < 256) :
    (∀ idx imp2, validateNextNodeIndex sizeRaw rawIndex = Except.ok (idx, imp2) →
        idx < sizeRaw ∧ (imp2 = true ↔ sizeRaw ≤ rawIndex))
      ∧ (validateNextNodeIndex sizeRaw rawIndex
          = Except.error ⟨StatusCode.invalidArgument, "Node index too large"⟩
            ↔ 2 * sizeRaw ≤ rawIndex)
      ∧ (decodeStep ctx numRecords st = StepResult.next st2 →
          st2.nodeIndex < ctx.stateMachineSize + 64
            ∧ st2.nodeIndex < ctx.nodes.length)
      ∧ (ctx.stateMachineSize ≤ st.nodeIndex →
          decodeStep ctx numRecords st
            = StepResult.failed ⟨StatusCode.invalidArgument, "Invalid node index"⟩) := by
  refine ⟨?_, ?_, ?_, ?_⟩
  · intro idx imp2 hok
    rw [validateNextNodeIndex] at hok
    by_cases hr : sizeRaw ≤ rawIndex
    · rw [if_pos hr] at hok
      by_cases h2 : sizeRaw ≤ rawIndex - sizeRaw
      · rw [if_pos h2] at hok
        cases hok
      · rw [if_neg h2] at hok
        injection hok with hok
        injection hok with hok1 hok2
        constructor
        · omega
        · rw [← hok2]
          simp [hr]
    · rw [if_neg hr] at hok
      by_cases h2 : sizeRaw ≤ rawIndex
      · exact absurd h2 hr
      · rw [if_neg h2] at hok
        injection hok with hok
        injection hok with hok1 hok2
        constructor
        · omega
        · rw [← hok2]
          simp [hr]
  · rw [validateNextNodeIndex]
    by_cases hr : sizeRaw ≤ rawIndex
    · rw [if_pos hr]
      by_cases h2 : sizeRaw ≤ rawIndex - sizeRaw
      · rw [if_pos h2]
        simp only [iff_true_intro (by omega : 2 * sizeRaw ≤ rawIndex)]
      · rw [if_neg h2]
        constructor
        · intro hc
          cases hc
        · intro hc
          omega
    · rw [if_neg hr]
      rw [if_neg (by omega : ¬ sizeRaw ≤ rawIndex)]
      constructor
      · intro hc
        cases hc
      · intro hc
        omega
  · intro hnext
    have hb := decodeStep_next_bound ctx numRecords st st2 hwf htb hnext
    refine ⟨hb, ?_⟩
    obtain ⟨hlen, _, _, _⟩ := hwf
    omega
  · intro hge
    obtain ⟨hlen, _, _, hguard⟩ := hwf
    exact decodeStep_guard_fail ctx numRecords st hguard hge

/-- Node table for the C9 witness: one real no-op node followed by the
`0xff` failure guard nodes. -/
def guardedCtx : DecodeContext :=
  ⟨1, ⟨CallbackType.noOp, false, 0, [], none⟩ :: List.replicate 255 defaultNode, 0⟩

set_option maxRecDepth 10000 in
/-- Witness for C9 at `size = 2`, raw index 3 (implicit encoding of
node 1), and a transition byte 255 taking the maximal advance 63 into
the guard region of a 1-node machine. -/
theorem C9_node_indexing_in_bounds_witness :
    ((∀ idx imp2, validateNextNodeIndex 2 3 = Except.ok (idx, imp2) →
        idx < 2 ∧ (imp2 = true ↔ 2 ≤ 3))
      ∧ (validateNextNodeIndex 2 3
          = Except.error ⟨StatusCode.invalidArgument, "Node index too large"⟩
            ↔ 2 * 2 ≤ 3)
      ∧ (decodeStep guardedCtx 0 ⟨0, 0, 0, [], [], [], [], [], [255]⟩
            = StepResult.next ⟨63, 3, 0, [], [], [], [], [], []⟩ →
          (⟨63, 3, 0, [], [], [], [], [], []⟩ : DecodeState).nodeIndex
              < guardedCtx.stateMachineSize + 64
            ∧ (⟨63, 3, 0, [], [], [], [], [], []⟩ : DecodeState).nodeIndex
              < guardedCtx.nodes.length)
      ∧ (guardedCtx.stateMachineSize
            ≤ (⟨0, 0, 0, [], [], [], [], [], [255]⟩ : DecodeState).nodeIndex →
          decodeStep guardedCtx 0 ⟨0, 0, 0, [], [], [], [], [], [255]⟩
            = StepResult.failed ⟨StatusCode.invalidArgument, "Invalid node index"⟩))
      ∧ decodeStep guardedCtx 0 ⟨0, 0, 0, [], [], [], [], [], [255]⟩
          = StepResult.next ⟨63, 3, 0, [], [], [], [], [], []⟩ := by
  constructor
  · exact C9_node_indexing_in_bounds guardedCtx 0
      ⟨0, 0, 0, [], [], [], [], [], [255]⟩ ⟨63, 3, 0, [], [], [], [], [], []⟩ 2 3
      (by constructor
          · decide
          · constructor
            · decide
            · constructor
              · decide
              · decide)
      (by decide)
  · rfl

/-- Invariant carried by the decode loop: the collected `limits` are
non-decreasing and never exceed the backward writer's position
(`dest.pos()`, i.e. the length of the decoded contents). -/
def limitsInv (st : DecodeState) : Prop :=
  st.limits.Pairwise (fun a b => a ≤ b) ∧ ∀ l ∈ st.limits, l ≤ st.dest.length

theorem decodeStep_limits_dest (ctx : DecodeContext) (numRecords : Nat)
    (st st2 : DecodeState)
    (h : decodeStep ctx numRecords st = StepResult.next st2
      ∨ decodeStep ctx numRecords st = StepResult.done st2) :
    (∃ pre, st2.dest = pre ++ st.dest)
      ∧ (st2.limits = st.limits ∨ st2.limits = st.limits ++ [st2.dest.length]) := by
  unfold decodeStep at h
  dsimp only at h
  cases hcb : (ctx.nodes.getD st.nodeIndex defaultNode).callbackType with
  | noOp =>
    rw [hcb] at h
    dsimp only at h
    obtain ⟨hd, hl, _, _⟩ := doTransition_frame ctx _ st2 h
    exact ⟨⟨[], by rw [hd] <;> rfl⟩, Or.inl hl⟩
  | messageStart =>
    rw [hcb] at h
    dsimp only at h
    rw [messageStartStep] at h
    by_cases h1 : st.stack ≠ []
    · rw [if_pos h1] at h
      rcases h with h | h <;> cases h
    · rw [if_neg h1] at h
      by_cases h2 : st.limits.length = numRecords
      · rw [if_pos h2] at h
        rcases h with h | h <;> cases h
      · rw [if_neg h2] at h
        obtain ⟨hd, hl, _, _⟩ := doTransition_frame ctx _ st2 h
        refine ⟨⟨[], by rw [hd] <;> rfl⟩, Or.inr ?_⟩
        rw [hl, hd]
  | skippedSubmessageEnd =>
    rw [hcb] at h
    dsimp only at h
    obtain ⟨hd, hl, _, _⟩ := doTransition_frame ctx _ st2 h
    exact ⟨⟨[], by rw [hd] <;> rfl⟩, Or.inl hl⟩
  | skippedSubmessageStart =>
    rw [hcb] at h
    dsimp only at h
    by_cases h1 : st.skippedLevel = 0
    · rw [if_pos h1] at h
      rcases h with h | h <;> cases h
    · rw [if_neg h1] at h
      obtain ⟨hd, hl, _, _⟩ := doTransition_frame ctx _ st2 h
      exact ⟨⟨[], by rw [hd] <;> rfl⟩, Or.inl hl⟩
  | submessageEnd =>
    rw [hcb] at h
    dsimp only at h
    obtain ⟨hd, hl, _, _⟩ := doTransition_frame ctx _ st2 h
    exact ⟨⟨[], by rw [hd] <;> rfl⟩, Or.inl hl⟩
  | submessageStart =>
    rw [hcb] at h
    dsimp only at h
    cases hstk : st.stack with
    | nil =>
      rw [hstk] at h
      rcases h with h | h <;> cases h
    | cons top stackRest =>
      rw [hstk] at h
      obtain ⟨endPos, tag⟩ := top
      dsimp only at h
      by_cases h1 : 2 ^ 32 - 1 < st.dest.length - endPos
      · rw [if_pos h1] at h
        rcases h with h | h <;> cases h
      · rw [if_neg h1] at h
        obtain ⟨hd, hl, _, _⟩ := doTransition_frame ctx _ st2 h
        refine ⟨⟨tag ++ writeVarint (st.dest.length - endPos), ?_⟩, Or.inl hl⟩
        rw [hd] <;> rfl
  | copyTag n =>
    rw [hcb] at h
    dsimp only at h
    obtain ⟨hd, hl, _, _⟩ := doTransition_frame ctx _ st2 h
    exact ⟨⟨(ctx.nodes.getD st.nodeIndex defaultNode).tagData.take n, by rw [hd] <;> rfl⟩,
      Or.inl hl⟩
  | varint k n =>
    rw [hcb] at h
    dsimp only at h
    cases hrb : readFromBuffer st.buffers
        (ctx.nodes.getD st.nodeIndex defaultNode).bufferIndex k with
    | none =>
      rw [hrb] at h
      rcases h with h | h <;> cases h
    | some pair =>
      rw [hrb] at h
      obtain ⟨bytes, buffers2⟩ := pair
      dsimp only at h
      obtain ⟨hd, hl, _, _⟩ := doTransition_frame ctx _ st2 h
      refine ⟨⟨(ctx.nodes.getD st.nodeIndex defaultNode).tagData.take n
          ++ setVarintHighBits bytes, ?_⟩, Or.inl hl⟩
      rw [hd] <;> rfl
  | fixed k n =>
    rw [hcb] at h
    dsimp only at h
    cases hrb : readFromBuffer st.buffers
        (ctx.nodes.getD st.nodeIndex defaultNode).bufferIndex k with
    | none =>
      rw [hrb] at h
      rcases h with h | h <;> cases h
    | some pair =>
      rw [hrb] at h
      obtain ⟨bytes, buffers2⟩ := pair
      dsimp only at h
      obtain ⟨hd, hl, _, _⟩ := doTransition_frame ctx _ st2 h
      refine ⟨⟨(ctx.nodes.getD st.nodeIndex defaultNode).tagData.take n
          ++ bytes, ?_⟩, Or.inl hl⟩
      rw [hd] <;> rfl
  | fixedExistence k n =>
    rw [hcb] at h
    dsimp only at h
    obtain ⟨hd, hl, _, _⟩ := doTransition_frame ctx _ st2 h
    refine ⟨⟨(ctx.nodes.getD st.nodeIndex defaultNode).tagData.take n
        ++ List.replicate k 0, ?_⟩, Or.inl hl⟩
    rw [hd] <;> rfl
  | stringCb n =>
    rw [hcb] at h
    dsimp only at h
    cases hpk : ReadVarint32Peek
        (stringCallbackBuffer st (ctx.nodes.getD st.nodeIndex defaultNode)) with
    | none =>
      rw [hpk] at h
      rcases h with h | h <;> cases h
    | some pair =>
      rw [hpk] at h
      obtain ⟨value, lengthLength⟩ := pair
      dsimp only at h
      by_cases h1 : 2 ^ 32 - 1 - lengthLength < value
      · rw [if_pos h1] at h
        rcases h with h | h <;> cases h
      · rw [if_neg h1] at h
        cases hrb : readFromBuffer st.buffers
            (ctx.nodes.getD st.nodeIndex defaultNode).bufferIndex
            (lengthLength + value) with
        | none =>
          rw [hrb] at h
          rcases h with h | h <;> cases h
        | some pair2 =>
          rw [hrb] at h
          obtain ⟨bytes, buffers2⟩ := pair2
          dsimp only at h
          obtain ⟨hd, hl, _, _⟩ := doTransition_frame ctx _ st2 h
          refine ⟨⟨(ctx.nodes.getD st.nodeIndex defaultNode).tagData.take n
              ++ bytes, ?_⟩, Or.inl hl⟩
          rw [hd] <;> rfl
  | nonProto =>
    rw [hcb] at h
    dsimp only at h
    cases hnp : readVarint32Consume st.nonproto with
    | none =>
      rw [hnp] at h
      rcases h with h | h <;> cases h
    | some pair =>
      rw [hnp] at h
      obtain ⟨len, nonproto2⟩ := pair
      dsimp only at h
      cases hrb : readFromBuffer st.buffers
          (ctx.nodes.getD st.nodeIndex defaultNode).bufferIndex len with
      | none =>
        rw [hrb] at h
        rcases h with h | h <;> cases h
      | some pair2 =>
        rw [hrb] at h
        obtain ⟨bytes, buffers2⟩ := pair2
        dsimp only at h
        rw [messageStartStep] at h
        dsimp only at h
        by_cases h1 : st.stack ≠ []
        · rw [if_pos h1] at h
          rcases h with h | h <;> cases h
        · rw [if_neg h1] at h
          by_cases h2 : st.limits.length = numRecords
          · rw [if_pos h2] at h
            rcases h with h | h <;> cases h
          · rw [if_neg h2] at h
            obtain ⟨hd, hl, _, _⟩ := doTransition_frame ctx _ st2 h
            refine ⟨⟨bytes, by rw [hd] <;> rfl⟩, Or.inr ?_⟩
            rw [hl, hd]
  | failure =>
    rw [hcb] at h
    dsimp only at h
    rcases h with h | h <;> cases h
  | unknown =>
    rw [hcb] at h
    dsimp only at h
    rcases h with h | h <;> cases h

theorem decodeStep_limitsInv (ctx : DecodeContext) (numRecords : Nat)
    (st st2 : DecodeState) (hinv : limitsInv st)
    (h : decodeStep ctx numRecords st = StepResult.next st2
      ∨ decodeStep ctx numRecords st = StepResult.done st2) :
    limitsInv st2 := by
  obtain ⟨⟨pre, hdest⟩, hlim⟩ := decodeStep_limits_dest ctx numRecords st st2 h
  obtain ⟨hpw, hle⟩ := hinv
  have hlen : st.dest.length ≤ st2.dest.length := by
    rw [hdest, List.length_append]
    omega
  rcases hlim with hlim | hlim
  · constructor
    · rw [hlim]
      exact hpw
    · intro l hl
      rw [hlim] at hl
      exact le_trans (hle l hl) hlen
  · constructor
    · rw [hlim, List.pairwise_append]
      refine ⟨hpw, by simp, ?_⟩
      intro a ha b hb
      rw [List.mem_singleton] at hb
      subst hb
      exact le_trans (hle a ha) hlen
    · intro l hl
      rw [hlim, List.mem_append, List.mem_singleton] at hl
      rcases hl with hl | hl
      · exact le_trans (hle l hl) hlen
      · subst hl
        exact le_rfl

theorem reverseComplementLimits_length (limits : List Nat) (size : Nat) :
    (reverseComplementLimits limits size).length = limits.length := by
  cases limits with
  | nil => rfl
  | cons a l =>
    show ((((a :: l).dropLast.map fun x => size - x).reverse) ++ [size]).length
      = (a :: l).length
    simp only [List.length_append, List.length_reverse, List.length_map,
      List.length_dropLast, List.length_cons, List.length_nil]
    omega

theorem reverseComplementLimits_sorted (limits : List Nat) (size : Nat)
    (hpw : limits.Pairwise (fun a b => a ≤ b)) :
    (reverseComplementLimits limits size).Pairwise (fun a b => a ≤ b) := by
  cases limits with
  | nil => exact List.Pairwise.nil
  | cons a l =>
    show ((((a :: l).dropLast.map fun x => size - x).reverse) ++ [size]).Pairwise
      (fun a b => a ≤ b)
    rw [List.pairwise_append]
    refine ⟨?_, by simp, ?_⟩
    · rw [List.pairwise_reverse]
      refine List.Pairwise.map _ ?_
        (List.Pairwise.sublist (List.dropLast_sublist _) hpw)
      intro x y hxy
      omega
    · intro x hx b hb
      rw [List.mem_singleton] at hb
      subst hb
      rw [List.mem_reverse, List.mem_map] at hx
      obtain ⟨y, _, hy⟩ := hx
      omega

theorem reverseComplementLimits_getLast (limits : List Nat) (size : Nat)
    (h : limits ≠ []) :
    (reverseComplementLimits limits size).getLast? = some size := by
  cases limits with
  | nil => exact absurd rfl h
  | cons a l =>
    show ((((a :: l).dropLast.map fun x => size - x).reverse) ++ [size]).getLast?
      = some size
    rw [List.getLast?_concat]

theorem decodeFinish_ok (numRecords : Nat) (st : DecodeState)
    (limits dest : List Nat) (hinv : limitsInv st)
    (h : decodeFinish numRecords st = DecodeOutcome.ok limits dest) :
    limits.length = numRecords
      ∧ limits.Pairwise (fun a b => a ≤ b)
      ∧ dest = st.dest
      ∧ (0 < numRecords → limits.getLast? = some dest.length) := by
  rw [decodeFinish] at h
  by_cases h1 : st.stack ≠ []
  · rw [if_pos h1] at h
    cases h
  · rw [if_neg h1] at h
    by_cases h2 : st.skippedLevel ≠ 0
    · rw [if_pos h2] at h
      cases h
    · rw [if_neg h2] at h
      by_cases h3 : st.limits.length ≠ numRecords
      · rw [if_pos h3] at h
        cases h
      · rw [if_neg h3] at h
        by_cases h4 : st.limits.getLastD 0 ≠ st.dest.length
        · rw [if_pos h4] at h
          cases h
        · rw [if_neg h4] at h
          injection h with hlim hdest
          rw [not_ne_iff] at h3 h4
          refine ⟨?_, ?_, hdest.symm, ?_⟩
          · rw [← hlim, reverseComplementLimits_length]
            exact h3
          · rw [← hlim]
            exact reverseComplementLimits_sorted st.limits _ hinv.1
          · intro hpos
            have hne : st.limits ≠ [] := by
              intro hnil
              rw [hnil] at h3
              simp at h3
              omega
            rw [← hlim, reverseComplementLimits_getLast st.limits _ hne, h4,
              ← hdest]

theorem decodeLoop_ok (ctx : DecodeContext) (numRecords : Nat) (fuel : Nat)
    (st : DecodeState) (limits dest : List Nat) (hinv : limitsInv st)
    (h : decodeLoop ctx numRecords fuel st = DecodeOutcome.ok limits dest) :
    limits.length = numRecords
      ∧ limits.Pairwise (fun a b => a ≤ b)
      ∧ (0 < numRecords → limits.getLast? = some dest.length) := by
  induction fuel generalizing st with
  | zero =>
    rw [decodeLoop] at h
    cases h
  | succ fuel ih =>
    rw [decodeLoop] at h
    cases hs : decodeStep ctx numRecords st with
    | next st2 =>
      rw [hs] at h
      exact ih st2 (decodeStep_limitsInv ctx numRecords st st2 hinv (Or.inl hs)) h
    | done st2 =>
      rw [hs] at h
      obtain ⟨hl, hp, _, hg⟩ := decodeFinish_ok numRecords st2 limits dest
        (decodeStep_limitsInv ctx numRecords st st2 hinv (Or.inr hs)) h
      exact ⟨hl, hp, hg⟩
    | failed e =>
      rw [hs] at h
      cases h

/-- C3: for a successful `Decode` of `numRecords` records the returned
limits vector has exactly `numRecords` non-decreasing entries and its
last entry is the total decoded size; each `MESSAGE_START` callback on
a state with no open submessages appends the current backward-writer
position `dest.pos()` to `limits`, failing with INVALID_ARGUMENT
"Too many records" when `limits` already holds `numRecords` entries;
and the `done:` epilogue fails with "Too few records" when the
transitions stream ended with fewer entries. -/
theorem C3_message_start_limits (ctx : DecodeContext) (numRecords : Nat)
    (buffers : List (List Nat)) (nonproto transitions : List Nat) (fuel : Nat)
    (limits dest : List Nat)
    (hdec : Decode ctx numRecords buffers nonproto transitions fuel
      = DecodeOutcome.ok limits dest) :
    (limits.length = numRecords
        ∧ limits.Pairwise (fun a b => a ≤ b)
        ∧ (0 < numRecords → limits.getLast? = some dest.length))
      ∧ (∀ st : DecodeState, st.stack = [] →
          (st.limits.length = numRecords →
            messageStartStep ctx numRecords st
              = StepResult.failed ⟨StatusCode.invalidArgument, "Too many records"⟩)
          ∧ (st.limits.length ≠ numRecords →
            messageStartStep ctx numRecords st
              = doTransition ctx { st with limits := st.limits ++ [st.dest.length] }))
      ∧ (∀ st : DecodeState, st.stack = [] → st.skippedLevel = 0 →
          st.limits.length ≠ numRecords →
          decodeFinish numRecords st
            = DecodeOutcome.failed ⟨StatusCode.invalidArgument, "Too few records"⟩) := by
  refine ⟨?_, ?_, ?_⟩
  · rw [Decode] at hdec
    exact decodeLoop_ok ctx numRecords fuel _ limits dest
      ⟨List.Pairwise.nil, fun l hl => absurd hl (List.not_mem_nil l)⟩ hdec
  · intro st hstk
    constructor
    · intro he
      rw [messageStartStep, if_neg (not_not_intro hstk), if_pos he]
    · intro hne
      rw [messageStartStep, if_neg (not_not_intro hstk), if_neg hne]
  · intro st hstk hskip hne
    rw [decodeFinish, if_neg (not_not_intro hstk), if_neg (not_not_intro hskip),
      if_pos hne]

/-- Machine for the C3 witness: a single `MESSAGE_START` node. -/
def msgCtx : DecodeContext :=
  ⟨1, [⟨CallbackType.messageStart, false, 0, [], none⟩], 0⟩

/-- Witness for C3: decoding one record on a single-`MESSAGE_START`
machine with an empty transitions stream yields `limits = [0]`. -/
theorem C3_message_start_limits_witness :
    (([0] : List Nat).length = 1
        ∧ ([0] : List Nat).Pairwise (fun a b => a ≤ b)
        ∧ (0 < 1 → ([0] : List Nat).getLast? = some ([] : List Nat).length))
      ∧ (∀ st : DecodeState, st.stack = [] →
          (st.limits.length = 1 →
            messageStartStep msgCtx 1 st
              = StepResult.failed ⟨StatusCode.invalidArgument, "Too many records"⟩)
          ∧ (st.limits.length ≠ 1 →
            messageStartStep msgCtx 1 st
              = doTransition msgCtx { st with limits := st.limits ++ [st.dest.length] }))
      ∧ (∀ st : DecodeState, st.stack = [] → st.skippedLevel = 0 →
          st.limits.length ≠ 1 →
          decodeFinish 1 st
            = DecodeOutcome.failed ⟨StatusCode.invalidArgument, "Too few records"⟩) :=
  C3_message_start_limits msgCtx 1 [] [] [] 2 [0] [] rfl

/-- Machine for the C4 refutation and witness: one `STRING_1` node with
tag byte `0x0a` reading from buffer 0. -/
def strCtx : DecodeContext :=
  ⟨1, [⟨CallbackType.stringCb 1, false, 0, [10], some 0⟩], 0⟩

/-- State for the C4 refutation and witness: at the `STRING_1` node with
buffer 0 holding the single byte `0x00` (an empty string's length
varint) and enough pending implicit iterations to continue. -/
def strSt : DecodeState :=
  ⟨0, 5, 0, [], [], [], [[0]], [], []⟩

/-- C4 as stated is false: the claim that `STRING_CALLBACK` copies only
the `value` payload bytes after the length varint (so that the forward
output is the tag followed by the payload) does not match
`node->buffer->Copy(length_length + size_t{length->value}, dest)`,
which copies the length prefix too: with buffer `[0x00]` (`value = 0`,
`length_length = 1`) the destination gains the tag byte and the `0x00`
length byte, not the tag byte alone. -/
theorem C4_string_callback_cex :
    ¬ (∀ (ctx : DecodeContext) (numRecords : Nat) (st st2 : DecodeState)
        (n value lengthLength : Nat),
        (ctx.nodes.getD st.nodeIndex defaultNode).callbackType
          = CallbackType.stringCb n →
        ReadVarint32Peek
            (stringCallbackBuffer st (ctx.nodes.getD st.nodeIndex defaultNode))
          = some (value, lengthLength) →
        decodeStep ctx numRecords st = StepResult.next st2 →
        st2.dest = (ctx.nodes.getD st.nodeIndex defaultNode).tagData.take n
          ++ ((stringCallbackBuffer st
              (ctx.nodes.getD st.nodeIndex defaultNode)).drop lengthLength).take value
          ++ st.dest) := by
  intro hall
  have h := hall strCtx 0 strSt ⟨0, 4, 0, [], [], [10, 0], [[]], [], []⟩
    1 0 1 rfl rfl rfl
  exact absurd h (by decide)

/-- C4 (amended): a `STRING_n` node peeks the varint length from its
data bucket without consuming it; unless the total exceeds the 32-bit
bound (failing with INVALID_ARGUMENT "String length overflow"), it
copies `length_length + value` bytes — the length varint together with
the payload — from the bucket to the backward writer and then emits the
`n` pre-encoded tag bytes, so the forward output is
`tag ++ length-prefixed string`. -/
theorem C4_string_callback_copies_length_prefix (ctx : DecodeContext)
    (numRecords : Nat) (st : DecodeState) (n value lengthLength : Nat)
    (hcb : (ctx.nodes.getD st.nodeIndex defaultNode).callbackType
      = CallbackType.stringCb n)
    (hpeek : ReadVarint32Peek
        (stringCallbackBuffer st (ctx.nodes.getD st.nodeIndex defaultNode))
      = some (value, lengthLength)) :
    (2 ^ 32 - 1 - lengthLength < value →
        decodeStep ctx numRecords st
          = StepResult.failed ⟨StatusCode.invalidArgument, "String length overflow"⟩)
      ∧ (¬ 2 ^ 32 - 1 - lengthLength < value →
          ∀ bytes buffers2,
            readFromBuffer st.buffers
                (ctx.nodes.getD st.nodeIndex defaultNode).bufferIndex
                (lengthLength + value) = some (bytes, buffers2) →
            decodeStep ctx numRecords st
              = doTransition ctx { st with
                  dest := (ctx.nodes.getD st.nodeIndex defaultNode).tagData.take n
                    ++ bytes ++ st.dest
                  buffers := buffers2 }
              ∧ bytes = (st.buffers.getD
                  ((ctx.nodes.getD st.nodeIndex defaultNode).bufferIndex.getD 0)
                  []).take (lengthLength + value)) := by
  constructor
  · intro hov
    unfold decodeStep
    dsimp only
    rw [hcb]
    dsimp only
    rw [hpeek]
    dsimp only
    rw [if_pos hov]
  · intro hov bytes buffers2 hread
    constructor
    · unfold decodeStep
      dsimp only
      rw [hcb]
      dsimp only
      rw [hpeek]
      dsimp only
      rw [if_neg hov, hread]
    · cases hbi : (ctx.nodes.getD st.nodeIndex defaultNode).bufferIndex with
      | none =>
        rw [hbi, readFromBuffer] at hread
        cases hread
      | some i =>
        rw [hbi, readFromBuffer] at hread
        by_cases hlen : (st.buffers.getD i []).length < lengthLength + value
        · rw [if_pos hlen] at hread
          cases hread
        · rw [if_neg hlen] at hread
          injection hread with hread
          injection hread with hb hbuf
          exact hb.symm

/-- Witness for C4 at the `STRING_1` machine: copying `1 + 0` bytes
prepends the length byte `0x00` together with the tag. -/
theorem C4_string_callback_copies_length_prefix_witness :
    ((2 ^ 32 - 1 - 1 < 0 →
        decodeStep strCtx 0 strSt
          = StepResult.failed ⟨StatusCode.invalidArgument, "String length overflow"⟩)
      ∧ (¬ 2 ^ 32 - 1 - 1 < 0 →
          ∀ bytes buffers2,
            readFromBuffer strSt.buffers
                (strCtx.nodes.getD strSt.nodeIndex defaultNode).bufferIndex
                (1 + 0) = some (bytes, buffers2) →
            decodeStep strCtx 0 strSt
              = doTransition strCtx { strSt with
                  dest := (strCtx.nodes.getD strSt.nodeIndex defaultNode).tagData.take 1
                    ++ bytes ++ strSt.dest
                  buffers := buffers2 }
              ∧ bytes = (strSt.buffers.getD
                  ((strCtx.nodes.getD strSt.nodeIndex defaultNode).bufferIndex.getD 0)
                  []).take (1 + 0))) :=
  C4_string_callback_copies_length_prefix strCtx 0 strSt 1 0 1 rfl rfl

end Riegeli
